/-
Verification of the student-record CMS (src/src/cms.c, input_validation.c, main.c)
against its natural-language specification.

The C program is shallowly embedded:
  * records are `StudentRecord` (the C `float mark` is modelled as `Rat`;
    all mark operations in the program are comparisons, one-decimal
    formatting and decimal parsing, which coincide with exact rational
    arithmetic on the values handled in the claims),
  * the linked list + hash table + undo/redo global state is `CState`,
    with an explicit heap `Nat → Option HNode` in which node pointers are
    allocation indices; dereferencing a freed pointer (use after free) or a
    cyclic chain (the C `while` loop would not terminate) is flagged as
    `CRes.ub`,
  * file I/O is passed in explicitly: an operation that `fopen`s a file
    receives `Option (List Char)` (`none` = open failure), and `saveDB`
    returns a `SaveResult` describing what it would write,
  * `printf` output that the claims mention is accumulated in `CState.out`;
    purely cosmetic table formatting (printNodeList) is not modelled.
-/
import Mathlib

namespace CMS

/-! ## Character and number helpers (C library functions used by the program) -/

/-- C `isspace` in the C locale. -/
def isSpaceC (c : Char) : Bool :=
  c = ' ' || c = '\t' || c = '\n' || c = '\x0d' || c = '\x0b' || c = '\x0c'

/-- C `isdigit`. -/
def isDigitC (c : Char) : Bool := '0' ≤ c && c ≤ '9'

/-- Numeric value of a digit character. -/
def digitVal (c : Char) : Int := (c.toNat : Int) - 48

/-- Decimal digits of a natural number, most significant first; `fuel` bounds
the number of digits (structural recursion so that the kernel can evaluate;
`fuel = n + 1` always suffices since a number has at most `n + 1` digits). -/
def natDecimalGo : Nat → Nat → List Char
  | 0, _ => []
  | f + 1, n =>
    if n < 10 then [Nat.digitChar n]
    else natDecimalGo f (n / 10) ++ [Nat.digitChar (n % 10)]

/-- Decimal rendering of a natural number, as produced by `printf "%d"`. -/
def natDecimal (n : Nat) : List Char := natDecimalGo (n + 1) n

/-- Decimal rendering of an int, as produced by `printf "%d"`
(INT_MIN overflow edge cases are outside the id range of the claims). -/
def intDecimal (i : Int) : List Char :=
  if i < 0 then '-' :: natDecimal i.natAbs else natDecimal i.natAbs

/-- The digit-accumulation loop inside C `atoi`: consume leading digits. -/
def atoiDigits : List Char → Int → Int
  | c :: cs, acc => if isDigitC c then atoiDigits cs (acc * 10 + digitVal c) else acc
  | [], acc => acc

/-- C `atoi`: skip leading whitespace, optional sign, leading digits
(overflow is undefined in C and not modelled; the claims use 7-digit ids). -/
def atoi (s : List Char) : Int :=
  match s.dropWhile (fun c => isSpaceC c) with
  | [] => 0
  | c :: rest =>
    if c = '-' then - atoiDigits rest 0
    else if c = '+' then atoiDigits rest 0
    else atoiDigits (c :: rest) 0

/-! ## Exact rationals for the C `float mark`

All mark operations in the program are comparisons, one-decimal formatting
and decimal parsing, which on the values handled by the claims coincide with
exact rational arithmetic.  Marks are therefore modelled by `Q`, a rational
in lowest terms with positive denominator (a canonical representation, so
structural equality is value equality).  A bespoke type is used instead of
Mathlib's `ℚ` so that every operation reduces by kernel computation. -/

/-- A rational number: `num / den` with `den > 0`, kept in lowest terms by
the smart constructor `Q.mk0`. -/
structure Q where
  num : Int
  den : Nat
  pos : 0 < den

instance : DecidableEq Q := fun a b =>
  if h : a.num = b.num ∧ a.den = b.den then
    isTrue (by cases a; cases b; simp_all)
  else isFalse (by intro he; apply h; cases he; exact ⟨rfl, rfl⟩)

/-- Normalised construction of `n / d` for `d > 0`. -/
def Q.mk0 (n : Int) (d : Nat) (h : 0 < d) : Q :=
  let g := Nat.gcd n.natAbs d
  have hg : 0 < g := Nat.gcd_pos_of_pos_right _ h
  ⟨n / (g : Int), d / g,
   Nat.div_pos (Nat.le_of_dvd h (Nat.gcd_dvd_right _ _)) hg⟩

/-- Embed an integer. -/
def Q.ofInt (n : Int) : Q := ⟨n, 1, Nat.one_pos⟩

def Q.add (a b : Q) : Q :=
  Q.mk0 (a.num * (b.den : Int) + b.num * (a.den : Int)) (a.den * b.den)
    (Nat.mul_pos a.pos b.pos)

def Q.mul (a b : Q) : Q :=
  Q.mk0 (a.num * b.num) (a.den * b.den) (Nat.mul_pos a.pos b.pos)

def Q.neg (a : Q) : Q := ⟨-a.num, a.den, a.pos⟩

/-- Divide by `10 ^ k` (the only division the parser needs). -/
def Q.divPow10 (a : Q) (k : Nat) : Q :=
  Q.mk0 a.num (a.den * 10 ^ k)
    (Nat.mul_pos a.pos (Nat.pos_pow_of_pos k (by omega)))

/-- Multiply by `10 ^ k`. -/
def Q.mulPow10 (a : Q) (k : Nat) : Q :=
  Q.mk0 (a.num * (10 : Int) ^ k) a.den a.pos

/-- Boolean `a ≤ b` by cross multiplication (denominators are positive). -/
def Q.ble (a b : Q) : Bool := a.num * (b.den : Int) ≤ b.num * (a.den : Int)

/-- Boolean `a < b`. -/
def Q.blt (a b : Q) : Bool := a.num * (b.den : Int) < b.num * (a.den : Int)

/-- Nearest integer to `num/den`, ties away from zero: this is what
`printf "%.1f"` effectively applies to the (exactly represented) tenths.
C rounds the binary double to nearest-even, but a tie or a sub-ulp difference
cannot arise for the values the claims evaluate. -/
def Q.roundNearest (a : Q) : Int :=
  let d := (a.den : Int)
  if 0 ≤ a.num then (2 * a.num + d) / (2 * d) else -((2 * (-a.num) + d) / (2 * d))

/-- Digit run of `atof`: accumulate leading digits into an integer, also
counting them; returns (value, digit count, rest). -/
def parseDigitsInt : List Char → Int → Nat → Int × Nat × List Char
  | c :: cs, acc, k =>
    if isDigitC c then parseDigitsInt cs (acc * 10 + digitVal c) (k + 1) else (acc, k, c :: cs)
  | [], acc, k => (acc, k, [])

/-- Exponent part of `atof`/`strtod` (`e`/`E` followed by an optionally signed
digit string); if no digits follow, `strtod` does not consume the exponent. -/
def parseExpQ (v : Q) : List Char → Q
  | e :: rest =>
    if e = 'e' || e = 'E' then
      let signed : Bool × List Char :=
        match rest with
        | '-' :: r2 => (true, r2)
        | '+' :: r2 => (false, r2)
        | r2 => (false, r2)
      match signed.2 with
      | c :: _ =>
        if isDigitC c then
          let ex := (parseDigitsInt signed.2 0 0).1.toNat
          if signed.1 then v.divPow10 ex else v.mulPow10 ex
        else v
      | [] => v
    else v
  | [] => v

/-- C `atof` (`strtod`), restricted to decimal forms: leading whitespace, sign,
digits, optional fraction, optional exponent.  Hex and `inf`/`nan` forms are
not modelled (never produced by the program's own serialisation and not used
by any claim).  The C double→float narrowing is not modelled: arithmetic is
exact, which agrees with C on the values the claims evaluate. -/
def atof (s : List Char) : Q :=
  let s1 := s.dropWhile (fun c => isSpaceC c)
  let signed : Bool × List Char :=
    match s1 with
    | '-' :: r => (true, r)
    | '+' :: r => (false, r)
    | r => (false, r)
  let ip := parseDigitsInt signed.2 0 0
  let fp :=
    match ip.2.2 with
    | '.' :: r => parseDigitsInt r 0 0
    | r => (0, 0, r)
  let v := parseExpQ ((Q.ofInt ip.1).add ((Q.ofInt fp.1).divPow10 fp.2.1)) fp.2.2
  if signed.1 then v.neg else v

/-- `printf "%.1f"`: round to one fractional digit and print. -/
def fmt1 (q : Q) : List Char :=
  let n : Int := (q.mul (Q.ofInt 10)).roundNearest
  let sgn : List Char := if n < 0 then ['-'] else []
  let m := n.natAbs
  sgn ++ natDecimal (m / 10) ++ ['.', Nat.digitChar (m % 10)]

/-! ## The record type -/

/-- `StudentRecord` from cms.h (`int id; char name[100]; char programme[100];
float mark`).  The C fixed buffers bound the strings at 99 characters; the
length bound appears as a hypothesis where a claim needs it (writing a longer
string with `strcpy` is a buffer overflow, i.e. undefined behaviour). -/
structure StudentRecord where
  id : Int
  name : String
  programme : String
  mark : Q
  deriving DecidableEq

/-! ## Persistence: serialisation (saveDB) and file parsing (loadDB)

`saveDB` (cms.c:726) serialises the store into a memory buffer: the fixed
header followed by one `%d\t%s\t%s\t%.1f\n` line per record, and compares it
byte-for-byte with the current primary file.  `loadDB` (cms.c:264) reads the
file with `fgets(line, 256)`, truncates each chunk at the first `'\r'` or
`'\n'` (`strcspn`), skips chunks that contain any of four header markers or
are empty (`strstr`), splits the rest on tabs into at most four fields and
builds a record. -/

/-- The fixed header written by `saveDB` (cms.c:759-763). -/
def headerChars : List Char :=
  ("Database Name: P4_1-CMS\nAuthors: P4-1\n\nTable Name: StudentRecords\n" ++
   "ID\tName\tProgramme\tMark\n").data

/-- One record line without its trailing newline (`%d\t%s\t%s\t%.1f`). -/
def lineBody (r : StudentRecord) : List Char :=
  intDecimal r.id ++
    ('\t' :: (r.name.data ++ ('\t' :: (r.programme.data ++ ('\t' :: fmt1 r.mark)))))

/-- One serialised record line (cms.c:783).  The C `snprintf` writes into a
256-byte buffer; truncation of over-long lines is excluded by the length
hypotheses of the round-trip theorems. -/
def recordLine (r : StudentRecord) : List Char := lineBody r ++ ['\n']

/-- The full serialised form of the store (`memContent` in `saveDB`). -/
def serializeDB (rs : List StudentRecord) : List Char :=
  headerChars ++ (rs.map recordLine).flatten

/-- One `fgets(line, 256)` call: read at most `n` characters, stopping after a
newline; returns the chunk and the unread rest. -/
def fgetsGo : Nat → List Char → List Char × List Char
  | _, [] => ([], [])
  | 0, s => ([], s)
  | n + 1, c :: cs =>
    if c = '\n' then ([c], cs)
    else
      let p := fgetsGo n cs
      (c :: p.1, p.2)

/-- The `while (fgets(...))` loop of `loadDB`, producing the chunk sequence.
`fuel` bounds the number of iterations; every chunk of a non-empty input is
non-empty, so `fuel = content.length` (as passed by `fgetsChunks`) is enough. -/
def fgetsChunksF : Nat → List Char → List (List Char)
  | _, [] => []
  | 0, _ => []
  | f + 1, c :: cs =>
    let p := fgetsGo 255 (c :: cs)
    p.1 :: fgetsChunksF f p.2

/-- All chunks read from the file content. -/
def fgetsChunks (content : List Char) : List (List Char) :=
  fgetsChunksF content.length content

/-- `line[strcspn(line, "\r\n")] = 0` (cms.c:282): truncate at the first CR or LF. -/
def stripAtCRLF (s : List Char) : List Char :=
  s.takeWhile (fun c => ¬ (c = '\x0d' || c = '\n'))

/-- The four header markers checked with `strstr` (cms.c:285-288). -/
def marker1 : List Char := "Database Name: P4_1-CMS".data
def marker2 : List Char := "Authors: P4-1".data
def marker3 : List Char := "Table Name: StudentRecords".data
def marker4 : List Char := "ID\tName\tProgramme\tMark".data

/-- C `strstr(s, pat) != NULL`: `pat` occurs as a contiguous substring of `s`. -/
def containsSub (pat s : List Char) : Bool :=
  match s with
  | [] => pat.isEmpty
  | _ :: rest => List.isPrefixOf pat s || containsSub pat rest

/-- The skip condition of the load loop: the (stripped) line contains one of
the four header markers, or is empty.  Note `strstr` is substring search, so
any line merely *containing* a marker is skipped. -/
def isHeaderOrEmpty (l : List Char) : Bool :=
  containsSub marker1 l || containsSub marker2 l || containsSub marker3 l ||
  containsSub marker4 l || l.isEmpty

/-- One step of the tab-splitting loop (cms.c:294-305): the field up to the
next tab, and the rest after that tab (everything, if there is no tab). -/
def cutTab (s : List Char) : List Char × List Char :=
  (s.takeWhile (fun c => c ≠ '\t'), (s.dropWhile (fun c => c ≠ '\t')).drop 1)

/-- Split a line into the four fields `fields[0..3]`; missing fields are empty,
content after a fourth tab is ignored, exactly as in the C loop. -/
def splitTabs4 (s : List Char) : List Char × List Char × List Char × List Char :=
  let p0 := cutTab s
  let p1 := cutTab p0.2
  let p2 := cutTab p1.2
  let p3 := cutTab p2.2
  (p0.1, p1.1, p2.1, p3.1)

/-- Build a record from a stripped, non-skipped line (cms.c:317-320):
`atoi` of field 0 (0 if empty), fields 1 and 2 as-is, `atof` of field 3
(0.0 if empty).  The C `strcpy` into 100-byte buffers overflows for fields of
100+ characters (undefined behaviour); the round-trip theorems restrict field
lengths accordingly. -/
def parseLine (s : List Char) : StudentRecord :=
  let f := splitTabs4 s
  { id := if f.1.isEmpty then 0 else atoi f.1
    name := String.mk f.2.1
    programme := String.mk f.2.2.1
    mark := if f.2.2.2.isEmpty then Q.ofInt 0 else atof f.2.2.2 }

/-- The record sequence `loadDB` builds from a successfully opened file's
content: chunk with `fgets`, strip at CR/LF, skip header/empty lines, parse
the rest, append in order. -/
def loadParse (content : List Char) : List StudentRecord :=
  ((fgetsChunks content).map stripAtCRLF).filterMap
    (fun l => if isHeaderOrEmpty l then none else some (parseLine l))

/-- Outcome of `saveDB` (cms.c:726-835): refuse when no database is loaded,
report "no changes" when the serialised store equals the primary file's
current bytes, otherwise write the old primary content to the backup (only
when the primary had content) and the serialised store to the primary. -/
inductive SaveResult where
  | notLoaded : SaveResult
  | noChanges : SaveResult
  | saved : Option (List Char) → List Char → SaveResult
  deriving DecidableEq

/-- `saveDB`, with the file system passed in: `primary = none` models a
missing primary file.  The C code leaves `fileContent = NULL` both when
`fopen` fails and when the file is empty (the `fgetc` loop reads nothing), in
which case the byte comparison is skipped and no backup is written. -/
def saveDB (loaded : Bool) (primary : Option (List Char)) (rs : List StudentRecord) :
    SaveResult :=
  if ¬ loaded then .notLoaded
  else
    let fileContent : Option (List Char) :=
      match primary with
      | none => none
      | some [] => none
      | some l => some l
    let mem := serializeDB rs
    match fileContent with
    | some fc => if fc = mem then .noChanges else .saved (some fc) mem
    | none => .saved none mem

/-! ## Sorted views (cms.c:438-515)

`showDBSorted` clones the linked list (`cloneList` copies the record data in
order) and runs `mergeSort` on the clone; the clone is therefore just the
record sequence, and the sort is modelled on `List StudentRecord`. -/

/-- The three-way comparison inside `mergeSorted` (cms.c:444-452):
id subtraction (`int` overflow cannot occur for 7-digit ids), or mark
trichotomy. -/
def cmpRec (sortByID : Bool) (a b : StudentRecord) : Int :=
  if sortByID then a.id - b.id
  else if Q.blt b.mark a.mark then 1 else if Q.blt a.mark b.mark then -1 else 0

/-- The branch condition of `mergeSorted` (cms.c:454): take the head of
`list1` when `(ascending && compare <= 0) || (!ascending && compare > 0)`. -/
def takeLeft (sortByID ascending : Bool) (a b : StudentRecord) : Bool :=
  (ascending && cmpRec sortByID a b ≤ 0) || (!ascending && cmpRec sortByID a b > 0)

/-- `mergeSorted` (cms.c:438-463), with a structural fuel bound so that the
kernel can evaluate it (`fuel = |l1| + |l2|` always suffices: each recursive
call consumes one element). -/
def mergeSortedF (sortByID ascending : Bool) :
    Nat → List StudentRecord → List StudentRecord → List StudentRecord
  | _, [], l2 => l2
  | _, l1, [] => l1
  | 0, l1, l2 => l1 ++ l2
  | f + 1, a :: l1, b :: l2 =>
    if takeLeft sortByID ascending a b then a :: mergeSortedF sortByID ascending f l1 (b :: l2)
    else b :: mergeSortedF sortByID ascending f (a :: l1) l2

/-- `mergeSorted` with its fuel instantiated. -/
def mergeSorted (sortByID ascending : Bool) (l1 l2 : List StudentRecord) :
    List StudentRecord :=
  mergeSortedF sortByID ascending (l1.length + l2.length) l1 l2

/-- `mergeSort` (cms.c:467-484).  The slow/fast pointer walk splits a list of
length `n ≥ 2` into its first `(n+1)/2` elements and the rest (`slow` ends on
element `⌈n/2⌉ - 1`, `middle = slow->next`); structural recursion on a fuel
bound (`fuel = length`, enough because both halves are strictly shorter). -/
def mergeSortF (sortByID ascending : Bool) : Nat → List StudentRecord → List StudentRecord
  | _, [] => []
  | _, [a] => [a]
  | 0, l => l
  | f + 1, l =>
    let k := (l.length + 1) / 2
    mergeSorted sortByID ascending
      (mergeSortF sortByID ascending f (l.take k))
      (mergeSortF sortByID ascending f (l.drop k))

/-- The sorted view built by `showDBSorted` from the record sequence. -/
def mergeSortC (sortByID ascending : Bool) (l : List StudentRecord) : List StudentRecord :=
  mergeSortF sortByID ascending l.length l

/-! ## The global program state (cms.c:27-47) and its operations

Nodes live in an explicit heap indexed by allocation number (`malloc` is
modelled as always returning a fresh index; the program never compares
pointers except against `NULL` and against `tail`, so address reuse is
unobservable short of undefined behaviour).  `Node.hashNext` is written by
`hashInsert` but never read by any function in the program — `findNode` and
`hashRemove` both traverse `next` — so it is not part of the model (this very
asymmetry is the subject of claims C1 and C5).  `CRes.ub` marks undefined
behaviour (dereference of a freed node) or a non-terminating `while` walk
over a cyclic chain. -/

/-- Outcome of a C operation: a value, or undefined behaviour / divergence. -/
inductive CRes (α : Type) where
  | ok : α → CRes α
  | ub : CRes α
  deriving DecidableEq

def CRes.bind {α β : Type} : CRes α → (α → CRes β) → CRes β
  | .ok a, f => f a
  | .ub, _ => .ub

def CRes.map {α β : Type} (f : α → β) : CRes α → CRes β
  | .ok a => .ok (f a)
  | .ub => .ub

/-- A heap node: the record plus the linked-list `next` pointer. -/
structure HNode where
  data : StudentRecord
  next : Option Nat
  deriving DecidableEq

/-- The four `ActionType` variants (cms.h). -/
inductive ActionType where
  | insertOp | updateOp | deleteOp | restoreOp
  deriving DecidableEq

/-- An undo/redo `Action` (cms.h).  C `malloc`s the struct and each operation
initialises only the fields its variant uses (insert: `newData`; update:
both; delete: `oldData`; restore: none); unset fields are uninitialised
memory that the program never reads, modelled as `blankRec`. -/
structure Action where
  type : ActionType
  oldData : StudentRecord
  newData : StudentRecord
  deriving DecidableEq

/-- Placeholder for uninitialised `Action` fields. -/
def blankRec : StudentRecord := ⟨0, "", "", Q.ofInt 0⟩

/-- The global variables of cms.c. -/
structure CState where
  heap : Nat → Option HNode
  head : Option Nat
  tail : Option Nat
  buckets : Int → Option Nat
  nextAlloc : Nat
  dbModified : Bool
  dbLoaded : Bool
  undoStack : List Action
  redoStack : List Action
  out : List String

/-- Point update of the heap. -/
def hset (h : Nat → Option HNode) (p : Nat) (v : Option HNode) : Nat → Option HNode :=
  fun q => if q = p then v else h q

/-- Point update of the hash table. -/
def bset (b : Int → Option Nat) (i : Int) (v : Option Nat) : Int → Option Nat :=
  fun j => if j = i then v else b j

/-- `hash` (cms.c:63): `id % TABLE_SIZE` with C's truncating `%`
(a negative id would index the array negatively — undefined behaviour — but
no claim uses negative ids). -/
def hashF (i : Int) : Int := i.tmod 2003

/-- Render an id the way `printf "%d"` does, for the user messages. -/
def idStr (i : Int) : String := String.mk (intDecimal i)

/-- The `while` walk of `findNode` (cms.c:115-123): follow `next` — the
linked-list pointer, not `hashNext` — from the bucket head, looking for the
id.  Fuel `nextAlloc + 1` bounds any acyclic live chain. -/
def walkFind (heap : Nat → Option HNode) : Nat → Option Nat → Int → CRes (Option Nat)
  | _, none, _ => .ok none
  | 0, some _, _ => .ub
  | f + 1, some p, i =>
    match heap p with
    | none => .ub
    | some nd => if nd.data.id = i then .ok (some p) else walkFind heap f nd.next i

/-- `findNode` (cms.c:115). -/
def findNode (st : CState) (i : Int) : CRes (Option Nat) :=
  walkFind st.heap (st.nextAlloc + 1) (st.buckets (hashF i)) i

/-- `pushUndo` (cms.c:154-164): push onto the undo stack and free the whole
redo stack. -/
def pushUndo (st : CState) (a : Action) : CState :=
  { st with undoStack := a :: st.undoStack, redoStack := [] }

/-- `insertDB` (cms.c:587-629).  The `malloc` failure path is not modelled. -/
def insertDB (st : CState) (newID : Int) (newName newProg : String) (newMark : Q)
    (isUndoRedo : Bool) : CRes CState :=
  match findNode st newID with
  | .ub => .ub
  | .ok (some _) =>
    .ok { st with out := st.out ++
            (if isUndoRedo then [] else
              ["CMS: Record with ID=" ++ idStr newID ++ " already exists."]) }
  | .ok none =>
    let p := st.nextAlloc
    let nd : HNode := ⟨⟨newID, newName, newProg, newMark⟩, none⟩
    let linked : CRes CState :=
      match st.head with
      | none => .ok { st with heap := hset st.heap p (some nd), head := some p, tail := some p }
      | some _ =>
        match st.tail with
        | none => .ub
        | some t =>
          match st.heap t with
          | none => .ub
          | some tn =>
            .ok { st with heap := hset (hset st.heap t (some ⟨tn.data, some p⟩)) p (some nd),
                          tail := some p }
    linked.map fun st1 =>
      let st2 := { st1 with buckets := bset st1.buckets (hashF newID) (some p),
                            nextAlloc := p + 1 }
      let st3 :=
        if isUndoRedo then st2
        else
          { pushUndo st2 ⟨.insertOp, blankRec, nd.data⟩ with
            out := st2.out ++ ["CMS: Record with ID=" ++ idStr newID ++ " inserted."] }
      { st3 with dbModified := true }

/-- `updateDB` (cms.c:653-682): apply the patch selectively — a name or
programme is written only when non-empty, the mark only when `>= 0.0f`. -/
def updateDB (st : CState) (i : Int) (name programme : String) (mark : Q)
    (isUndoRedo : Bool) : CRes CState :=
  match findNode st i with
  | .ub => .ub
  | .ok none =>
    .ok { st with out := st.out ++
            (if isUndoRedo then [] else
              ["CMS: The record with ID=" ++ idStr i ++ " does not exist."]) }
  | .ok (some p) =>
    match st.heap p with
    | none => .ub
    | some nd =>
      let old := nd.data
      let upd : StudentRecord :=
        { old with
          name := if name.length > 0 then name else old.name
          programme := if programme.length > 0 then programme else old.programme
          mark := if Q.ble (Q.ofInt 0) mark then mark else old.mark }
      let st1 := { st with heap := hset st.heap p (some ⟨upd, nd.next⟩) }
      let st2 :=
        if isUndoRedo then st1
        else
          { pushUndo st1 ⟨.updateOp, old, upd⟩ with
            out := st1.out ++
              ["CMS: The record with ID=" ++ idStr i ++ " is successfully updated."] }
      .ok { st2 with dbModified := true }

/-- The search loop of `deleteDB` (cms.c:691-695): walk the linked list from
`head` tracking the predecessor. -/
def walkDel (heap : Nat → Option HNode) :
    Nat → Option Nat → Option Nat → Int → CRes (Option (Option Nat × Nat))
  | _, _, none, _ => .ok none
  | 0, _, some _, _ => .ub
  | f + 1, prev, some p, i =>
    match heap p with
    | none => .ub
    | some nd =>
      if nd.data.id = i then .ok (some (prev, p)) else walkDel heap f (some p) nd.next i

/-- `hashRemove` (cms.c:90-104): walk from the bucket head following `next`
(again the list pointer, not `hashNext`); on a match at the head, repoint the
bucket at `cur->next`; on a match further on, write `prev->next = cur->next`
— a write into the linked list itself. -/
def hashRemoveWalk (st : CState) (b : Int) :
    Nat → Option Nat → Option Nat → Int → CRes CState
  | _, _, none, _ => .ok st
  | 0, _, some _, _ => .ub
  | f + 1, prev, some p, i =>
    match st.heap p with
    | none => .ub
    | some nd =>
      if nd.data.id = i then
        match prev with
        | none => .ok { st with buckets := bset st.buckets b nd.next }
        | some pv =>
          match st.heap pv with
          | none => .ub
          | some pn => .ok { st with heap := hset st.heap pv (some ⟨pn.data, nd.next⟩) }
      else hashRemoveWalk st b f (some p) nd.next i

/-- `hashRemove` entry point. -/
def hashRemove (st : CState) (i : Int) : CRes CState :=
  hashRemoveWalk st (hashF i) (st.nextAlloc + 1) none (st.buckets (hashF i)) i

/-- `deleteDB` (cms.c:687-721).  Returns the C `int` result (`false` = not
found, `true` = found) paired with the state; with `confirm = false` it is a
pure presence check. -/
def deleteDB (st : CState) (i : Int) (confirm isUndoRedo : Bool) : CRes (Bool × CState) :=
  match walkDel st.heap (st.nextAlloc + 1) none st.head i with
  | .ub => .ub
  | .ok none => .ok (false, st)
  | .ok (some (prev, cur)) =>
    if ¬ confirm then .ok (true, st)
    else
      match st.heap cur with
      | none => .ub
      | some nd =>
        let st1 :=
          if isUndoRedo then st else pushUndo st ⟨.deleteOp, nd.data, blankRec⟩
        let unlinked : CRes CState :=
          match prev with
          | none => .ok { st1 with head := nd.next }
          | some pv =>
            match st1.heap pv with
            | none => .ub
            | some pn => .ok { st1 with heap := hset st1.heap pv (some ⟨pn.data, nd.next⟩) }
        unlinked.bind fun st2 =>
          let st3 := if st2.tail = some cur then { st2 with tail := prev } else st2
          (hashRemove st3 i).map fun st4 =>
            let st5 := { st4 with heap := hset st4.heap cur none }
            let st6 :=
              if isUndoRedo then st5
              else { st5 with out := st5.out ++
                      ["CMS: The record with ID=" ++ idStr i ++ " is successfully deleted."] }
            (true, { st6 with dbModified := true })

/-- The walk of `freeDB` (cms.c:871-879): free every node on the list from
`head`.  `none` covers both a use-after-free dereference and a cyclic chain. -/
def freeWalk : Nat → (Nat → Option HNode) → Option Nat → Option (Nat → Option HNode)
  | _, h, none => some h
  | 0, _, some _ => none
  | f + 1, h, some p =>
    match h p with
    | none => none
    | some nd => freeWalk f (hset h p none) nd.next

/-- `freeDB`: free the list and reset `head` (note: `tail` is left stale). -/
def freeDB (st : CState) : CRes CState :=
  match freeWalk (st.nextAlloc + 1) st.heap st.head with
  | none => .ub
  | some h2 => .ok { st with heap := h2, head := none }

/-- The append step of the load loop (cms.c:307-330): allocate a node, link
it at the tail and register it in the hash table — with no duplicate check. -/
def appendRecord (stc : CRes CState) (r : StudentRecord) : CRes CState :=
  stc.bind fun st =>
    let p := st.nextAlloc
    let nd : HNode := ⟨r, none⟩
    let linked : CRes CState :=
      match st.head with
      | none => .ok { st with heap := hset st.heap p (some nd), head := some p, tail := some p }
      | some _ =>
        match st.tail with
        | none => .ub
        | some t =>
          match st.heap t with
          | none => .ub
          | some tn =>
            .ok { st with heap := hset (hset st.heap t (some ⟨tn.data, some p⟩)) p (some nd),
                          tail := some p }
    linked.map fun st1 =>
      { st1 with buckets := bset st1.buckets (hashF r.id) (some p), nextAlloc := p + 1 }

/-- `loadDB` (cms.c:264-336).  The file system is passed in:
`content = none` models an `fopen` failure.  The function frees the store and
resets the hash table *before* attempting to open the file; on failure it
reports and forces `dbLoaded = 0`; on success it appends every parsed record
and sets `dbLoaded = 1`.  `dbModified` is never touched. -/
def loadDB (st : CState) (fname : String) (content : Option (List Char)) : CRes CState :=
  (freeDB st).bind fun st1 =>
    let st2 := { st1 with buckets := fun _ => none }
    match content with
    | none =>
      .ok { st2 with dbLoaded := false,
                     out := st2.out ++ ["CMS: Could not open file \"" ++ fname ++ "\"."] }
    | some cs =>
      ((loadParse cs).foldl appendRecord (.ok st2)).map fun st3 =>
        { st3 with dbLoaded := true,
                   out := st3.out ++
                     ["CMS: The database file \"P4_1-CMS.txt\" is successfully opened."] }

/-- `openDB` (cms.c:253-260): load the primary file unless already loaded. -/
def openDB (st : CState) (content : Option (List Char)) : CRes CState :=
  if st.dbLoaded then
    .ok { st with out := st.out ++
            ["CMS: The database file \"P4_1-CMS.txt\" has already been opened."] }
  else loadDB st "./data/P4_1-CMS.txt" content

/-- `restoreDB` (cms.c:840-866).  `backup = none` models a missing backup
file.  A user-originated restore records a `Restore` action (whose payload
fields are never initialised) before reloading from the backup; the reload
itself is `loadDB`, and `dbModified` is set afterwards. -/
def restoreDB (st : CState) (isUndoRedo : Bool) (backup : Option (List Char)) : CRes CState :=
  match backup with
  | none =>
    .ok { st with out := st.out ++
            ["CMS: Backup file \"P4_1-CMS.bak\" does not exist. Cannot restore."] }
  | some cs =>
    let st1 := if isUndoRedo then st else pushUndo st ⟨.restoreOp, blankRec, blankRec⟩
    (loadDB st1 "./data/P4_1-CMS.bak" (some cs)).map fun st2 =>
      let st3 :=
        if isUndoRedo then st2
        else { st2 with out := st2.out ++
                ["CMS: Database successfully restored from backup. Changes are not saved yet."] }
      { st3 with dbModified := true }

/-- `undo` (cms.c:168-207).  `primary` is the current content of the primary
file, needed when the popped action is a `Restore` (its undo reloads the
primary file). -/
def undo (st : CState) (primary : Option (List Char)) : CRes CState :=
  match st.undoStack with
  | [] => .ok { st with out := st.out ++ ["CMS: Nothing to undo."] }
  | a :: rest =>
    let st1 := { st with undoStack := rest }
    let applied : CRes CState :=
      match a.type with
      | .insertOp =>
        (deleteDB st1 a.newData.id true true).map fun pr =>
          { pr.2 with out := pr.2.out ++
              ["CMS: UNDO -> Undid INSERT (ID " ++ idStr a.newData.id ++ ")."] }
      | .updateOp =>
        (updateDB st1 a.oldData.id a.oldData.name a.oldData.programme a.oldData.mark true).map
          fun s => { s with out := s.out ++
              ["CMS: UNDO -> Undid UPDATE on (ID " ++ idStr a.newData.id ++ ")."] }
      | .deleteOp =>
        (insertDB st1 a.oldData.id a.oldData.name a.oldData.programme a.oldData.mark true).map
          fun s => { s with out := s.out ++
              ["CMS: UNDO -> Undid DELETE (ID " ++ idStr a.oldData.id ++ ")."] }
      | .restoreOp =>
        (loadDB st1 "./data/P4_1-CMS.txt" primary).map fun s =>
          { s with out := s.out ++ ["CMS: UNDO -> Undid RESTORE operation."] }
    applied.map fun s => { s with redoStack := a :: s.redoStack }

/-- `redo` (cms.c:211-249).  `backup` is the current content of the backup
file, needed when the popped action is a `Restore` (its redo calls
`restoreDB(1)`). -/
def redo (st : CState) (backup : Option (List Char)) : CRes CState :=
  match st.redoStack with
  | [] => .ok { st with out := st.out ++ ["CMS: Nothing to redo."] }
  | a :: rest =>
    let st1 := { st with redoStack := rest }
    let applied : CRes CState :=
      match a.type with
      | .insertOp =>
        (insertDB st1 a.newData.id a.newData.name a.newData.programme a.newData.mark true).map
          fun s => { s with out := s.out ++
              ["CMS: REDO -> Redid INSERT (ID " ++ idStr a.newData.id ++ ")."] }
      | .updateOp =>
        (updateDB st1 a.newData.id a.newData.name a.newData.programme a.newData.mark true).map
          fun s => { s with out := s.out ++
              ["CMS: REDO -> Redid UPDATE on (ID " ++ idStr a.newData.id ++ ")."] }
      | .deleteOp =>
        (deleteDB st1 a.oldData.id true true).map fun pr =>
          { pr.2 with out := pr.2.out ++
              ["CMS: REDO -> Redid DELETE (ID " ++ idStr a.oldData.id ++ ")."] }
      | .restoreOp =>
        (restoreDB st1 true backup).map fun s =>
          { s with out := s.out ++ ["CMS: REDO -> Redid RESTORE operation."] }
    applied.map fun s => { s with undoStack := a :: s.undoStack }

/-- Read the record sequence off the linked list (the observable store
contents); `none` on a dangling pointer or a cycle. -/
def walkSeq (heap : Nat → Option HNode) : Nat → Option Nat → Option (List StudentRecord)
  | _, none => some []
  | 0, some _ => none
  | f + 1, some p =>
    match heap p with
    | none => none
    | some nd => (walkSeq heap f nd.next).map fun l => nd.data :: l

/-- The record sequence `S` of the store. -/
def seqRecords (st : CState) : Option (List StudentRecord) :=
  walkSeq st.heap (st.nextAlloc + 1) st.head

/-- The id sequence of the store. -/
def seqIds (st : CState) : Option (List Int) :=
  (seqRecords st).map (List.map (fun r => r.id))

/-- The pristine start state (all globals as initialised at cms.c:27-47). -/
def state0 : CState :=
  ⟨fun _ => none, none, none, fun _ => none, 0, false, false, [], [], []⟩

/-! ## The input layer (input_validation.c, main.c)

Only what claim C3 needs: `validateCommand`, `parseCommand` with its
validators, and the `UPDATE` dispatch of `main`. -/

/-- `strncasecmp(s, pat, strlen pat) == 0` (ASCII case folding, as C's
`tolower` in the C locale). -/
def matchPrefixCI : List Char → List Char → Bool
  | [], _ => true
  | _ :: _, [] => false
  | p :: ps, c :: cs => (p.toLower = c.toLower) && matchPrefixCI ps cs

/-- `validateCommand` (input_validation.c:63-91): skip leading spaces, match
the keyword case-insensitively, require a space or end after it, and return
the rest with its leading spaces skipped. -/
def validateCommand (input cmd : List Char) : Option (List Char) :=
  let p := input.dropWhile (fun c => isSpaceC c)
  if matchPrefixCI cmd p then
    match p.drop cmd.length with
    | [] => some []
    | c :: cs => if isSpaceC c then some ((c :: cs).dropWhile (fun x => isSpaceC x)) else none
  else none

/-- `validateID` (input_validation.c:99-112): exactly 7 digits, first `'2'`. -/
def validateID (s : List Char) : Bool :=
  s.length = 7 &&
    (match s with | c :: _ => c = '2' | [] => false) &&
    s.all (fun c => isDigitC c)

/-- `toTitleCase` (input_validation.c:121-130). -/
def toTitleCaseGo : Bool → List Char → List Char
  | _, [] => []
  | cap, c :: cs =>
    if isSpaceC c then c :: toTitleCaseGo true cs
    else if cap then c.toUpper :: toTitleCaseGo false cs
    else c.toLower :: toTitleCaseGo false cs

def toTitleCase (s : List Char) : List Char := toTitleCaseGo true s

/-- The scan loop of `validateMark` (input_validation.c:141-153). -/
def vmGo : List Char → Nat → Bool → Bool
  | [], _, digitFound => digitFound
  | c :: cs, dots, df =>
    if isDigitC c then vmGo cs dots true
    else if c = '.' then (if dots + 1 > 1 then false else vmGo cs (dots + 1) df)
    else false

/-- `validateMark`: empty accepted; else optional sign then digits with at
most one dot, at least one digit. -/
def validateMark (s : List Char) : Bool :=
  match s with
  | [] => true
  | c :: cs => if c = '+' || c = '-' then vmGo cs 0 false else vmGo (c :: cs) 0 false

/-- Does one of the four keys start here, followed by `'='` or a space
(a key at end-of-string does not match: `ptr[len]` is `'\0'`)? -/
def keyMatchAt (k s : List Char) : Bool :=
  matchPrefixCI k s &&
    (match s.drop k.length with
     | c :: _ => c = '=' || isSpaceC c
     | [] => false)

/-- The key-identification loop (input_validation.c:193-202), in key order
`ID, NAME, PROGRAMME, MARK`. -/
def keyAt (s : List Char) : Option Nat :=
  if keyMatchAt ("ID".data) s then some 0
  else if keyMatchAt ("NAME".data) s then some 1
  else if keyMatchAt ("PROGRAMME".data) s then some 2
  else if keyMatchAt ("MARK".data) s then some 3
  else none

/-- Value extraction (input_validation.c:242-257): everything up to the next
key or end of string. -/
def scanValue : List Char → List Char × List Char
  | [] => ([], [])
  | c :: cs =>
    if (keyAt (c :: cs)).isSome then ([], c :: cs)
    else
      let p := scanValue cs
      (c :: p.1, p.2)

/-- Trim trailing whitespace (input_validation.c:259-261). -/
def dropTrailingSpace (s : List Char) : List Char :=
  (s.reverse.dropWhile (fun c => isSpaceC c)).reverse

/-- The outputs of `parseCommand`, with the `found[]` flags and the
`optionalProvided` flag.  Note the defaults set at input_validation.c:175-178:
`*id = -1`, empty strings, and `*mark = 0.0f` — the mark default is `0`,
not a negative sentinel. -/
structure PAcc where
  id : Int
  name : List Char
  programme : List Char
  mark : Q
  fid : Bool
  fname : Bool
  fprog : Bool
  fmark : Bool
  optProvided : Bool
  deriving DecidableEq

/-- The main loop of `parseCommand` (input_validation.c:190-355).  `fuel` is
structural (each iteration consumes at least the key and the `'='`, so
`fuel = input length` suffices).  `none` is a rejected command. -/
def parseLoop (optionalMode : Nat) : Nat → List Char → PAcc → Option PAcc
  | _, [], acc => some acc
  | 0, _ :: _, _ => none
  | f + 1, s, acc =>
    match keyAt s with
    | none => none
    | some idx =>
      let dup :=
        match idx with
        | 0 => acc.fid | 1 => acc.fname | 2 => acc.fprog | _ => acc.fmark
      if dup then none
      else
        let keyLen : Nat := match idx with | 0 => 2 | 1 => 4 | 2 => 9 | _ => 4
        let afterKey := s.drop keyLen
        let spaces := (afterKey.takeWhile (fun c => isSpaceC c)).length
        match afterKey.dropWhile (fun c => isSpaceC c) with
        | '=' :: rest0 =>
          if spaces > 0 then none
          else
            let rest1 := rest0.dropWhile (fun c => isSpaceC c)
            let sv := scanValue rest1
            let trimmed := dropTrailingSpace sv.1
            let lenv := trimmed.length
            let val := trimmed.take 255
            if optionalMode = 0 && idx ≠ 0 then none
            else
              let step : Option PAcc :=
                match idx with
                | 0 =>
                  if lenv = 0 then none
                  else if ¬ validateID val then none
                  else some { acc with id := atoi val, fid := true }
                | 1 =>
                  if lenv = 0 then some { acc with fname := true }
                  else if lenv ≥ 100 then none
                  else some { acc with name := toTitleCase (val.take 99), fname := true,
                                       optProvided := true }
                | 2 =>
                  if lenv = 0 then some { acc with fprog := true }
                  else if lenv ≥ 100 then none
                  else some { acc with programme := toTitleCase (val.take 99), fprog := true,
                                       optProvided := true }
                | _ =>
                  if lenv = 0 then some { acc with fmark := true }
                  else if ¬ validateMark val then none
                  else
                    let m := atof val
                    if Q.blt m (Q.ofInt 0) || Q.blt (Q.ofInt 100) m then none
                    else some { acc with mark := m, fmark := true, optProvided := true }
              step.bind fun acc2 =>
                parseLoop optionalMode f (sv.2.dropWhile (fun c => isSpaceC c)) acc2
        | _ => none

/-- `parseCommand` (input_validation.c:167-371).  `optionalMode` is
`OPTIONAL_NONE = 0`, `OPTIONAL_REQUIRED = 1` or `OPTIONAL_ALLOWED_EMPTY = 2`. -/
def parseCommand (input : List Char) (optionalMode : Nat) : Option PAcc :=
  (parseLoop optionalMode input.length input
      ⟨-1, [], [], Q.ofInt 0, false, false, false, false, false⟩).bind fun acc =>
    if acc.id = -1 then none
    else if optionalMode = 1 && ¬ acc.optProvided then none
    else some acc

/-- The `UPDATE` dispatch of `main` (main.c:60-70): validate the keyword,
parse with `OPTIONAL_REQUIRED`, and call `updateDB` with whatever defaults
`parseCommand` left in the unsupplied fields.  A line that is not a
well-formed `UPDATE` command leaves the state unchanged (main reports and
loops). -/
def runUpdateCommand (st : CState) (line : String) : CRes CState :=
  match validateCommand line.data ("UPDATE".data) with
  | none => .ok st
  | some rest =>
    if ¬ st.dbLoaded then .ok st
    else
      match parseCommand rest 1 with
      | none => .ok st
      | some acc =>
        updateDB st acc.id (String.mk acc.name) (String.mk acc.programme) acc.mark false

/-! ## Claim evaluations: the hash-index and undo defects (C1, C2, C3, C4, C5)

Each trace below starts from the reachable state obtained by loading a
header-only primary file (an empty table) and performs user commands only. -/

/-- The store right after `loadDB` of a file holding just the header. -/
def stLoaded : CRes CState := loadDB state0 "./data/P4_1-CMS.txt" (some headerChars)

/-- C1 trace: two user inserts whose ids 2000001 and 2002004 differ by 2003
and therefore share hash bucket 1007. -/
def traceC1 : CRes CState :=
  stLoaded.bind fun s =>
  (insertDB s 2000001 "Ada" "Cs" (Q.ofInt 90) false).bind fun s2 =>
  insertDB s2 2002004 "Bob" "Ee" (Q.ofInt 70) false

/-- C5 trace: the C1 collision followed by a second user insert of the
already-present id 2000001. -/
def traceC5 : CRes CState :=
  stLoaded.bind fun s =>
  (insertDB s 2000001 "Ada" "Cs" (Q.ofInt 90) false).bind fun s2 =>
  (insertDB s2 2002004 "Bob" "Ee" (Q.ofInt 70) false).bind fun s3 =>
  insertDB s3 2000001 "Eve" "Me" (Q.ofInt 50) false

/-- C2 trace, before the mutation: three user inserts. -/
def traceC2pre : CRes CState :=
  stLoaded.bind fun s =>
  (insertDB s 2000001 "A" "X" (Q.ofInt 10) false).bind fun s2 =>
  (insertDB s2 2000002 "B" "X" (Q.ofInt 20) false).bind fun s3 =>
  insertDB s3 2000003 "C" "X" (Q.ofInt 30) false

/-- C2 trace: one user mutation (confirmed delete of the middle record
2000002) followed by one undo. -/
def traceC2 : CRes CState :=
  traceC2pre.bind fun s =>
  (deleteDB s 2000002 true false).bind fun pr =>
  undo pr.2 none

/-- C4 trace, the pre-state `s0`: insert 2000001 and 2000002, delete 2000001
(confirmed), undo.  The undo re-inserts 2000001 at the tail, so
`S = [2000002, 2000001]` and the top of the undo stack is the insert of
2000002, whose record is no longer last. -/
def traceC4s0 : CRes CState :=
  stLoaded.bind fun s =>
  (insertDB s 2000001 "A" "X" (Q.ofInt 10) false).bind fun s2 =>
  (insertDB s2 2000002 "B" "X" (Q.ofInt 20) false).bind fun s3 =>
  (deleteDB s3 2000001 true false).bind fun pr =>
  undo pr.2 none

/-- C4 trace: `undo()` then immediately `redo()` from `s0`. -/
def traceC4 : CRes CState :=
  traceC4s0.bind fun s => (undo s none).bind fun s2 => redo s2 none

/-- C3 trace, before the update: one record (2000001, "Bob", "Ee", 50.0). -/
def traceC3pre : CRes CState :=
  stLoaded.bind fun s => insertDB s 2000001 "Bob" "Ee" (Q.ofInt 50) false

/-- C3 trace: the user command `UPDATE ID=2000001 NAME=al`, which supplies
NAME and omits MARK. -/
def traceC3 : CRes CState :=
  traceC3pre.bind fun s => runUpdateCommand s "UPDATE ID=2000001 NAME=al"

/-- C1: the spec claims index coherence (`get(r.id) = r` for every `r ∈ S`,
and the index holds exactly the ids of `S`) in every reachable state.  The
code violates it: after the two colliding user inserts of `traceC1` the
sequence `S` holds ids `[2000001, 2002004]`, yet `findNode 2000001` returns
`NULL` — `findNode` walks the linked-list `next` pointer from the bucket head
instead of the `hashNext` chain that `hashInsert` maintains, so the earlier
record of the bucket is unreachable.  (`hashNext` is written and never read.) -/
theorem c1_findNode_misses_colliding_record :
    (traceC1.bind fun s => (findNode s 2000001).map fun r => (seqIds s, r)) =
      .ok (some [2000001, 2002004], none) := by decide

/-- C5: the spec claims id uniqueness in every reachable state, with a
duplicate insert always failing.  In the state of `traceC1` a third user
insert of id 2000001 is *accepted* — the duplicate check is
`findNode(newID)`, which misses the colliding record — leaving `S` with two
records of id 2000001. -/
theorem c5_duplicate_id_insert_accepted :
    traceC5.map seqIds = .ok (some [2000001, 2002004, 2000001]) := by decide

/-- C2: the spec claims that `k` user mutations followed by `k` undos restore
the record sequence exactly, including order.  With `S = [2000001, 2000002,
2000003]`, one confirmed delete of the middle record 2000002 followed by one
undo yields `[2000001, 2000003, 2000002]` — the undo re-inserts the record
via `insertDB`, which appends at the tail, not at the record's old position. -/
theorem c2_delete_undo_changes_order :
    traceC2pre.map seqIds = .ok (some [2000001, 2000002, 2000003]) ∧
    traceC2.map seqIds = .ok (some [2000001, 2000003, 2000002]) := by decide

/-- C4: the spec claims `undo()` then `redo()` is the identity on every store
state with a non-empty undo stack.  In the reachable state `s0` of
`traceC4s0` — `S = [2000002, 2000001]`, top of the undo stack the insert of
2000002 — undo deletes 2000002 and redo re-appends it at the tail, giving
`S = [2000001, 2000002] ≠ s0`. -/
theorem c4_undo_redo_not_identity :
    traceC4s0.map seqIds = .ok (some [2000002, 2000001]) ∧
    traceC4.map seqIds = .ok (some [2000001, 2000002]) := by decide

/-- C3: the spec claims a user UPDATE that omits MARK leaves the stored mark
unchanged.  After `UPDATE ID=2000001 NAME=al` on the record
(2000001, "Bob", "Ee", 50.0), the mark is reset to 0.0: `parseCommand`
initialises the omitted mark to `0.0f` (input_validation.c:178), and
`updateDB` applies any mark `>= 0.0f` (cms.c:672), so the "omitted" sentinel
is indistinguishable from an explicit `MARK=0`.  (Omitted NAME/PROGRAMME are
left unchanged as claimed: their sentinel is the empty string.) -/
theorem c3_omitted_mark_resets_to_zero :
    traceC3pre.map seqRecords = .ok (some [⟨2000001, "Bob", "Ee", Q.ofInt 50⟩]) ∧
    traceC3.map seqRecords = .ok (some [⟨2000001, "Al", "Ee", Q.ofInt 0⟩]) := by decide

/-! ## Frame lemmas for `loadDB` (claims C9 and C10) -/

/-- Well-linked tail: the append path of the load loop never dereferences a
dangling `tail` (either the list is empty, or `tail` points at a live node). -/
def TailInv (st : CState) : Prop :=
  st.head = none ∨ ∃ t nd, st.tail = some t ∧ st.heap t = some nd

theorem appendRecord_ok (st : CState) (r : StudentRecord) (h : TailInv st) :
    ∃ st2, appendRecord (.ok st) r = .ok st2 ∧ TailInv st2 ∧
      st2.undoStack = st.undoStack ∧ st2.redoStack = st.redoStack ∧
      st2.dbLoaded = st.dbLoaded ∧ st2.dbModified = st.dbModified ∧ st2.out = st.out := by
  cases hhd : st.head with
  | none =>
    let st2 : CState := { st with
      heap := hset st.heap st.nextAlloc (some ⟨r, none⟩)
      head := some st.nextAlloc
      tail := some st.nextAlloc
      buckets := bset st.buckets (hashF r.id) (some st.nextAlloc)
      nextAlloc := st.nextAlloc + 1 }
    refine ⟨st2, ?_, ?_, rfl, rfl, rfl, rfl, rfl⟩
    · simp [st2, appendRecord, CRes.bind, CRes.map, hhd]
    · exact Or.inr ⟨st.nextAlloc, ⟨r, none⟩, rfl, by simp [st2, hset]⟩
  | some hd =>
    rcases h with hh | ⟨t, nd, ht, hheap⟩
    · rw [hhd] at hh; cases hh
    · let st2 : CState := { st with
        heap := hset (hset st.heap t (some ⟨nd.data, some st.nextAlloc⟩)) st.nextAlloc
                  (some ⟨r, none⟩)
        tail := some st.nextAlloc
        buckets := bset st.buckets (hashF r.id) (some st.nextAlloc)
        nextAlloc := st.nextAlloc + 1 }
      refine ⟨st2, ?_, ?_, rfl, rfl, rfl, rfl, rfl⟩
      · simp [st2, appendRecord, CRes.bind, CRes.map, hhd, ht, hheap]
      · exact Or.inr ⟨st.nextAlloc, ⟨r, none⟩, rfl, by simp [st2, hset]⟩

theorem foldl_appendRecord_ok (rs : List StudentRecord) :
    ∀ st : CState, TailInv st →
    ∃ st2, rs.foldl appendRecord (.ok st) = .ok st2 ∧ TailInv st2 ∧
      st2.undoStack = st.undoStack ∧ st2.redoStack = st.redoStack ∧
      st2.dbLoaded = st.dbLoaded ∧ st2.dbModified = st.dbModified ∧ st2.out = st.out := by
  induction rs with
  | nil => exact fun st h => ⟨st, rfl, h, rfl, rfl, rfl, rfl, rfl⟩
  | cons r rs ih =>
    intro st h
    obtain ⟨st1, h1, hinv, hu, hr, hl, hm, ho⟩ := appendRecord_ok st r h
    obtain ⟨st2, h2, hinv2, hu2, hr2, hl2, hm2, ho2⟩ := ih st1 hinv
    exact ⟨st2, by simpa [h1] using h2, hinv2, by rw [hu2, hu], by rw [hr2, hr],
           by rw [hl2, hl], by rw [hm2, hm], by rw [ho2, ho]⟩

/-- The stacks, as the pair (undo, redo). -/
def stacksOf (st : CState) : List Action × List Action := (st.undoStack, st.redoStack)

theorem loadDB_stacks (st : CState) (fname : String) (content : Option (List Char)) :
    (loadDB st fname content).map stacksOf =
      (loadDB st fname content).map (fun _ => stacksOf st) := by
  unfold loadDB freeDB
  cases hfw : freeWalk (st.nextAlloc + 1) st.heap st.head with
  | none => rfl
  | some h2 =>
    cases content with
    | none => rfl
    | some cs =>
      obtain ⟨st2, hfold, _, hu, hr, _, _, _⟩ :=
        foldl_appendRecord_ok (loadParse cs)
          { st with heap := h2, head := none, buckets := fun _ => none } (Or.inl rfl)
      simp [CRes.bind, hfold, CRes.map, stacksOf, hu, hr]

theorem CRes.map_map {α β γ : Type} (f : α → β) (g : β → γ) (c : CRes α) :
    (c.map f).map g = c.map (fun a => g (f a)) := by cases c <;> rfl

/-! ## Claims C9 and C10: load failure and history framing -/

/-- C9 trace: a loaded store with one record, then a `loadDB` whose `fopen`
fails. -/
def traceC9pre : CRes CState :=
  stLoaded.bind fun s => insertDB s 2000001 "Ada" "Cs" (Q.ofInt 90) false

def traceC9 : CRes CState :=
  traceC9pre.bind fun s => loadDB s "./data/P4_1-CMS.txt" none

/-- C9 counterexample: the claim says a failed load leaves the in-memory
sequence and the `loaded` flag unchanged.  In the reachable state with
`S = [2000001]` and `loaded = true`, a failed load leaves `S = []` and
`loaded = false`: `loadDB` frees the store and resets the hash table
*before* calling `fopen`, and sets `dbLoaded = 0` on failure. -/
theorem c9_failed_load_not_atomic :
    traceC9pre.map (fun s => (seqIds s, s.dbLoaded)) = .ok (some [2000001], true) ∧
    traceC9.map (fun s => (seqIds s, s.dbLoaded)) = .ok (some [], false) := by decide

/-- C9 (amended): when `loadDB` fails to open its file, the in-memory
sequence has already been cleared and `loaded` is forced to `false`; the
failure is reported as a user-visible message without aborting, and
`modified` and both history stacks keep their values.  (The leading
`(freeDB st).map` accounts for the store-freeing walk the C code performs
first; it diverges only on a corrupted heap.) -/
theorem c9_failed_load_behaviour :
    ∀ (st : CState) (fname : String),
      (loadDB st fname none).map
          (fun s2 => (seqRecords s2, s2.dbLoaded, s2.dbModified,
                      s2.undoStack, s2.redoStack, s2.out)) =
        (freeDB st).map
          (fun _ => ((some [] : Option (List StudentRecord)), false, st.dbModified,
                     st.undoStack, st.redoStack,
                     st.out ++ ["CMS: Could not open file \"" ++ fname ++ "\"."])) := by
  intro st fname
  unfold loadDB freeDB
  cases hfw : freeWalk (st.nextAlloc + 1) st.heap st.head with
  | none => rfl
  | some h2 => simp [CRes.bind, CRes.map, seqRecords, walkSeq]

/-- C10 trace: an insert followed by its undo leaves one action on the redo
stack; a confirmed user `RESTORE` then runs. -/
def traceC10pre : CRes CState :=
  stLoaded.bind fun s =>
  (insertDB s 2000001 "A" "X" (Q.ofInt 10) false).bind fun s2 => undo s2 none

def traceC10 : CRes CState :=
  traceC10pre.bind fun s => restoreDB s false (some headerChars)

/-- C10 counterexample: the claim says restore (which calls load) leaves the
undo and redo stacks unchanged, every action recorded before a reload
remaining on its stack.  A user-originated restore in a state with one
redoable action pushes a `Restore` action onto the undo stack and clears the
redo stack (`pushUndo` frees it), so the recorded action is gone. -/
theorem c10_user_restore_clears_redo :
    traceC10pre.map (fun s => (s.undoStack.length, s.redoStack.length)) = .ok (0, 1) ∧
    traceC10.map (fun s => (s.undoStack.map (fun a => a.type), s.redoStack.length)) =
      .ok ([ActionType.restoreOp], 0) := by decide

/-- C10 (amended): `loadDB` itself — and hence `openDB`, and the restore
replayed by `redo` (`restoreDB` with `isUndoRedo = 1`) — leaves both history
stacks unchanged: reloading neither clears nor modifies recorded actions, so
a later undo or redo replays them against the newly loaded contents.  A
*user-originated* restore, however, records its own `Restore` action first:
it pushes onto the undo stack and clears the redo stack (H2). -/
theorem c10_reload_history_frame :
    (∀ (st : CState) (fname : String) (content : Option (List Char)),
      (loadDB st fname content).map stacksOf =
        (loadDB st fname content).map (fun _ => stacksOf st)) ∧
    (∀ (st : CState) (content : Option (List Char)),
      (openDB st content).map stacksOf =
        (openDB st content).map (fun _ => stacksOf st)) ∧
    (∀ (st : CState) (backup : Option (List Char)),
      (restoreDB st true backup).map stacksOf =
        (restoreDB st true backup).map (fun _ => stacksOf st)) ∧
    (∀ (st : CState) (cs : List Char),
      (restoreDB st false (some cs)).map stacksOf =
        (restoreDB st false (some cs)).map
          (fun _ => ((⟨.restoreOp, blankRec, blankRec⟩ : Action) :: st.undoStack,
                     ([] : List Action)))) := by
  refine ⟨loadDB_stacks, ?_, ?_, ?_⟩
  · intro st content
    by_cases hl : st.dbLoaded
    · simp [openDB, hl, CRes.map, stacksOf]
    · simpa [openDB, hl] using loadDB_stacks st "./data/P4_1-CMS.txt" content
  · intro st backup
    cases backup with
    | none => rfl
    | some cs =>
      have hre : restoreDB st true (some cs) =
          (loadDB st "./data/P4_1-CMS.bak" (some cs)).map
            (fun st2 => { st2 with dbModified := true }) := rfl
      have h := loadDB_stacks st "./data/P4_1-CMS.bak" (some cs)
      rw [hre, CRes.map_map, CRes.map_map]
      cases hld : loadDB st "./data/P4_1-CMS.bak" (some cs) with
      | ub => rfl
      | ok s2 =>
        rw [hld] at h
        simp only [CRes.map, CRes.ok.injEq] at h ⊢
        simpa [stacksOf] using h
  · intro st cs
    have hre : restoreDB st false (some cs) =
        (loadDB (pushUndo st ⟨.restoreOp, blankRec, blankRec⟩)
            "./data/P4_1-CMS.bak" (some cs)).map
          (fun st2 =>
            { st2 with
              dbModified := true
              out := st2.out ++
                ["CMS: Database successfully restored from backup. Changes are not saved yet."] }) :=
      rfl
    have h := loadDB_stacks (pushUndo st ⟨.restoreOp, blankRec, blankRec⟩)
      "./data/P4_1-CMS.bak" (some cs)
    rw [hre, CRes.map_map, CRes.map_map]
    cases hld : loadDB (pushUndo st ⟨.restoreOp, blankRec, blankRec⟩)
        "./data/P4_1-CMS.bak" (some cs) with
    | ub => rfl
    | ok s2 =>
      rw [hld] at h
      simp only [CRes.map, CRes.ok.injEq] at h ⊢
      simpa [stacksOf, pushUndo] using h

/-! ## Claim C6: sortedness and tie order of the sorted views -/

/-- The value comparison underlying `Q.ble`/`Q.blt`, as a proposition. -/
def Q.le (a b : Q) : Prop := a.num * (b.den : Int) ≤ b.num * (a.den : Int)

theorem Q.le_total (a b : Q) : a.le b ∨ b.le a := by
  unfold Q.le; omega

theorem Q.le_trans {a b c : Q} (h1 : a.le b) (h2 : b.le c) : a.le c := by
  unfold Q.le at h1 h2 ⊢
  have hb : (0 : Int) < (b.den : Int) := by exact_mod_cast b.pos
  have hc : (0 : Int) ≤ (c.den : Int) := by positivity
  have ha : (0 : Int) ≤ (a.den : Int) := by positivity
  have h1' := mul_le_mul_of_nonneg_right h1 hc
  have h2' := mul_le_mul_of_nonneg_right h2 ha
  have key : a.num * (c.den : Int) * (b.den : Int) ≤ c.num * (a.den : Int) * (b.den : Int) := by
    nlinarith
  exact le_of_mul_le_mul_right key hb

theorem Q.ble_iff (a b : Q) : Q.ble a b = true ↔ a.le b := by
  simp [Q.ble, Q.le]

theorem Q.blt_iff (a b : Q) : Q.blt a b = true ↔ ¬ b.le a := by
  simp [Q.blt, Q.le]

/-- The sort key: the id (as a rational) or the mark. -/
def keyQ (sortByID : Bool) (r : StudentRecord) : Q :=
  if sortByID then Q.ofInt r.id else r.mark

/-- The ascending merge takes the left head exactly when its key is ≤. -/
theorem takeLeft_asc_iff (s : Bool) (a b : StudentRecord) :
    takeLeft s true a b = true ↔ (keyQ s a).le (keyQ s b) := by
  cases s with
  | true =>
    simp only [takeLeft, cmpRec, if_pos rfl, keyQ, Q.le, Q.ofInt]
    simp
  | false =>
    simp only [takeLeft, cmpRec, if_false, Bool.false_eq_true, keyQ]
    by_cases h1 : Q.blt b.mark a.mark = true
    · have h1' := (Q.blt_iff _ _).mp h1
      simp [h1, h1']
    · have h1' := h1
      rw [Q.blt_iff, not_not] at h1'
      by_cases h2 : Q.blt a.mark b.mark = true <;> simp [h1, h2, h1']

/-- The descending merge takes the left head exactly when its key is strictly
greater. -/
theorem takeLeft_desc_iff (s : Bool) (a b : StudentRecord) :
    takeLeft s false a b = true ↔ ¬ (keyQ s a).le (keyQ s b) := by
  cases s with
  | true =>
    simp only [takeLeft, cmpRec, if_pos rfl, keyQ, Q.le, Q.ofInt]
    simp
  | false =>
    simp only [takeLeft, cmpRec, if_false, Bool.false_eq_true, keyQ]
    by_cases h1 : Q.blt b.mark a.mark = true
    · have h1' := (Q.blt_iff _ _).mp h1
      simp [h1, h1']
    · have h1' := h1
      rw [Q.blt_iff, not_not] at h1'
      by_cases h2 : Q.blt a.mark b.mark = true <;> simp [h1, h2, h1']

/-- Ascending sortedness by the key. -/
def SortedA (s : Bool) (l : List StudentRecord) : Prop :=
  l.Pairwise (fun a b => (keyQ s a).le (keyQ s b))

/-- Descending sortedness by the key. -/
def SortedD (s : Bool) (l : List StudentRecord) : Prop :=
  l.Pairwise (fun a b => (keyQ s b).le (keyQ s a))

/-- Elements of a merge come from one of the two inputs. -/
theorem mem_mergeSortedF (s asc : Bool) :
    ∀ (f : Nat) (l1 l2 : List StudentRecord) (x : StudentRecord),
      x ∈ mergeSortedF s asc f l1 l2 → x ∈ l1 ∨ x ∈ l2 := by
  intro f
  induction f with
  | zero =>
    intro l1 l2 x hx
    cases l1 with
    | nil => exact Or.inr (by simpa [mergeSortedF] using hx)
    | cons a l1 =>
      cases l2 with
      | nil => exact Or.inl (by simpa [mergeSortedF] using hx)
      | cons b l2 =>
        simp only [mergeSortedF] at hx
        simpa using List.mem_append.mp hx
  | succ f ih =>
    intro l1 l2 x hx
    cases l1 with
    | nil => exact Or.inr (by simpa [mergeSortedF] using hx)
    | cons a l1 =>
      cases l2 with
      | nil => exact Or.inl (by simpa [mergeSortedF] using hx)
      | cons b l2 =>
        simp only [mergeSortedF] at hx
        by_cases hc : takeLeft s asc a b = true
        · rw [if_pos hc] at hx
          rcases List.mem_cons.mp hx with h | h
          · exact Or.inl (h ▸ List.mem_cons_self _ _)
          · rcases ih l1 (b :: l2) x h with h1 | h2
            · exact Or.inl (List.mem_cons_of_mem _ h1)
            · exact Or.inr h2
        · rw [if_neg hc] at hx
          rcases List.mem_cons.mp hx with h | h
          · exact Or.inr (h ▸ List.mem_cons_self _ _)
          · rcases ih (a :: l1) l2 x h with h1 | h2
            · exact Or.inl h1
            · exact Or.inr (List.mem_cons_of_mem _ h2)

/-- Ascending merge of sorted lists is sorted. -/
theorem sortedA_mergeSortedF (s : Bool) :
    ∀ (f : Nat) (l1 l2 : List StudentRecord),
      l1.length + l2.length ≤ f → SortedA s l1 → SortedA s l2 →
      SortedA s (mergeSortedF s true f l1 l2) := by
  intro f
  induction f with
  | zero =>
    intro l1 l2 hf h1 h2
    cases l1 with
    | nil => simpa [mergeSortedF, SortedA] using h2
    | cons a l1 => simp at hf
  | succ f ih =>
    intro l1 l2 hf h1 h2
    cases l1 with
    | nil => simpa [mergeSortedF, SortedA] using h2
    | cons a l1 =>
      cases l2 with
      | nil => simpa [mergeSortedF, SortedA] using h1
      | cons b l2 =>
        simp only [mergeSortedF]
        rcases List.pairwise_cons.mp h1 with ⟨ha, h1t⟩
        rcases List.pairwise_cons.mp h2 with ⟨hb, h2t⟩
        by_cases hc : takeLeft s true a b = true
        · rw [if_pos hc]
          have hab := (takeLeft_asc_iff s a b).mp hc
          refine List.pairwise_cons.mpr ⟨?_, ?_⟩
          · intro x hx
            rcases mem_mergeSortedF s true f l1 (b :: l2) x hx with hm | hm
            · exact ha x hm
            · rcases List.mem_cons.mp hm with h | h
              · exact h ▸ hab
              · exact Q.le_trans hab (hb x h)
          · exact ih l1 (b :: l2) (by simp at hf ⊢; omega) h1t h2
        · rw [if_neg hc]
          have hba : (keyQ s b).le (keyQ s a) := by
            rcases Q.le_total (keyQ s a) (keyQ s b) with h | h
            · exact absurd ((takeLeft_asc_iff s a b).mpr h) hc
            · exact h
          refine List.pairwise_cons.mpr ⟨?_, ?_⟩
          · intro x hx
            rcases mem_mergeSortedF s true f (a :: l1) l2 x hx with hm | hm
            · rcases List.mem_cons.mp hm with h | h
              · exact h ▸ hba
              · exact Q.le_trans hba (ha x h)
            · exact hb x hm
          · exact ih (a :: l1) l2 (by simp at hf ⊢; omega) h1 h2t

/-- Descending merge of descending-sorted lists is descending-sorted. -/
theorem sortedD_mergeSortedF (s : Bool) :
    ∀ (f : Nat) (l1 l2 : List StudentRecord),
      l1.length + l2.length ≤ f → SortedD s l1 → SortedD s l2 →
      SortedD s (mergeSortedF s false f l1 l2) := by
  intro f
  induction f with
  | zero =>
    intro l1 l2 hf h1 h2
    cases l1 with
    | nil => simpa [mergeSortedF, SortedD] using h2
    | cons a l1 => simp at hf
  | succ f ih =>
    intro l1 l2 hf h1 h2
    cases l1 with
    | nil => simpa [mergeSortedF, SortedD] using h2
    | cons a l1 =>
      cases l2 with
      | nil => simpa [mergeSortedF, SortedD] using h1
      | cons b l2 =>
        simp only [mergeSortedF]
        rcases List.pairwise_cons.mp h1 with ⟨ha, h1t⟩
        rcases List.pairwise_cons.mp h2 with ⟨hb, h2t⟩
        by_cases hc : takeLeft s false a b = true
        · rw [if_pos hc]
          have hba : (keyQ s b).le (keyQ s a) := by
            rcases Q.le_total (keyQ s a) (keyQ s b) with h | h
            · exact absurd h ((takeLeft_desc_iff s a b).mp hc)
            · exact h
          refine List.pairwise_cons.mpr ⟨?_, ?_⟩
          · intro x hx
            rcases mem_mergeSortedF s false f l1 (b :: l2) x hx with hm | hm
            · exact ha x hm
            · rcases List.mem_cons.mp hm with h | h
              · exact h ▸ hba
              · exact Q.le_trans (hb x h) hba
          · exact ih l1 (b :: l2) (by simp at hf ⊢; omega) h1t h2
        · rw [if_neg hc]
          have hab : (keyQ s a).le (keyQ s b) := by
            by_contra h
            exact hc ((takeLeft_desc_iff s a b).mpr h)
          refine List.pairwise_cons.mpr ⟨?_, ?_⟩
          · intro x hx
            rcases mem_mergeSortedF s false f (a :: l1) l2 x hx with hm | hm
            · rcases List.mem_cons.mp hm with h | h
              · exact h ▸ hab
              · exact Q.le_trans (ha x h) hab
            · exact hb x hm
          · exact ih (a :: l1) l2 (by simp at hf ⊢; omega) h1 h2t

theorem Q.le_refl (a : Q) : a.le a := by unfold Q.le; omega

/-- A key class of an ascending merge, in order: first the left list's
members, then the right's. -/
theorem filter_mergeSortedF_asc (s : Bool) (k : Q) :
    ∀ (f : Nat) (l1 l2 : List StudentRecord),
      l1.length + l2.length ≤ f → SortedA s l1 →
      (mergeSortedF s true f l1 l2).filter (fun r => keyQ s r = k) =
        l1.filter (fun r => keyQ s r = k) ++ l2.filter (fun r => keyQ s r = k) := by
  intro f
  induction f with
  | zero =>
    intro l1 l2 hf _
    cases l1 with
    | nil => simp [mergeSortedF]
    | cons a l1 => simp at hf
  | succ f ih =>
    intro l1 l2 hf h1
    cases l1 with
    | nil => simp [mergeSortedF]
    | cons a l1 =>
      cases l2 with
      | nil => simp [mergeSortedF]
      | cons b l2 =>
        simp only [mergeSortedF]
        rcases List.pairwise_cons.mp h1 with ⟨ha, h1t⟩
        by_cases hc : takeLeft s true a b = true
        · rw [if_pos hc]
          have hrec := ih l1 (b :: l2) (by simp at hf ⊢; omega) h1t
          by_cases hpa : keyQ s a = k <;>
            simp [List.filter_cons, hpa, hrec]
        · rw [if_neg hc]
          have hab : ¬ (keyQ s a).le (keyQ s b) := fun h =>
            hc ((takeLeft_asc_iff s a b).mpr h)
          have hrec := ih (a :: l1) l2 (by simp at hf ⊢; omega) h1
          by_cases hpb : keyQ s b = k
          · have hnil : (a :: l1).filter (fun r => keyQ s r = k) = [] := by
              rw [List.filter_eq_nil_iff]
              intro x hx
              rcases List.mem_cons.mp hx with hxa | hxl
              · intro hxk
                simp only [decide_eq_true_eq] at hxk
                rw [hxa] at hxk
                exact hab (by rw [hxk, ← hpb]; exact Q.le_refl _)
              · intro hxk
                simp only [decide_eq_true_eq] at hxk
                have hx := ha x hxl
                rw [hxk, ← hpb] at hx
                exact hab hx
            simp [List.filter_cons, hpb, hrec, hnil]
          · simp [List.filter_cons, hpb, hrec]

/-- A key class of a descending merge, in order: first the *right* list's
members, then the left's (the source of the reversed tie order). -/
theorem filter_mergeSortedF_desc (s : Bool) (k : Q) :
    ∀ (f : Nat) (l1 l2 : List StudentRecord),
      l1.length + l2.length ≤ f → SortedD s l2 →
      (mergeSortedF s false f l1 l2).filter (fun r => keyQ s r = k) =
        l2.filter (fun r => keyQ s r = k) ++ l1.filter (fun r => keyQ s r = k) := by
  intro f
  induction f with
  | zero =>
    intro l1 l2 hf _
    cases l1 with
    | nil => simp [mergeSortedF]
    | cons a l1 => simp at hf
  | succ f ih =>
    intro l1 l2 hf h2
    cases l1 with
    | nil => simp [mergeSortedF]
    | cons a l1 =>
      cases l2 with
      | nil => simp [mergeSortedF]
      | cons b l2 =>
        simp only [mergeSortedF]
        rcases List.pairwise_cons.mp h2 with ⟨hb, h2t⟩
        by_cases hc : takeLeft s false a b = true
        · rw [if_pos hc]
          have hab : ¬ (keyQ s a).le (keyQ s b) := (takeLeft_desc_iff s a b).mp hc
          have hrec := ih l1 (b :: l2) (by simp at hf ⊢; omega) h2
          by_cases hpa : keyQ s a = k
          · have hnil : (b :: l2).filter (fun r => keyQ s r = k) = [] := by
              rw [List.filter_eq_nil_iff]
              intro x hx
              rcases List.mem_cons.mp hx with hxb | hxl
              · intro hxk
                simp only [decide_eq_true_eq] at hxk
                rw [hxb] at hxk
                exact hab (by rw [hxk, ← hpa]; exact Q.le_refl _)
              · intro hxk
                simp only [decide_eq_true_eq] at hxk
                have hx := hb x hxl
                rw [hxk, ← hpa] at hx
                exact hab hx
            simp [List.filter_cons, hpa, hrec, hnil]
          · simp [List.filter_cons, hpa, hrec]
        · rw [if_neg hc]
          have hrec := ih (a :: l1) l2 (by simp at hf ⊢; omega) h2t
          by_cases hpb : keyQ s b = k <;>
            simp [List.filter_cons, hpb, hrec]

/-- The combined induction for the ascending sort: sorted, and every key
class in input order. -/
theorem mergeSortF_asc_ok (s : Bool) (k : Q) :
    ∀ (f : Nat) (l : List StudentRecord), l.length ≤ f →
      SortedA s (mergeSortF s true f l) ∧
      (mergeSortF s true f l).filter (fun r => keyQ s r = k) =
        l.filter (fun r => keyQ s r = k) := by
  intro f
  induction f with
  | zero =>
    intro l hf
    have hl0 : l = [] := List.length_eq_zero.mp (by omega)
    subst hl0
    exact ⟨List.Pairwise.nil, rfl⟩
  | succ f ih =>
    intro l hf
    match l with
    | [] => exact ⟨List.Pairwise.nil, rfl⟩
    | [a] => exact ⟨List.pairwise_singleton _ _, rfl⟩
    | a :: b :: xs =>
      have hlen : (a :: b :: xs).length = xs.length + 2 := by simp
      have htk : ((a :: b :: xs).take (((a :: b :: xs).length + 1) / 2)).length ≤ f := by
        simp at hf ⊢; omega
      have hdr : ((a :: b :: xs).drop (((a :: b :: xs).length + 1) / 2)).length ≤ f := by
        simp at hf ⊢; omega
      obtain ⟨hs1, hf1⟩ := ih _ htk
      obtain ⟨hs2, hf2⟩ := ih _ hdr
      constructor
      · show SortedA s (mergeSortF s true (f + 1) (a :: b :: xs))
        simp only [mergeSortF, mergeSorted]
        exact sortedA_mergeSortedF s _ _ _ le_rfl hs1 hs2
      · show (mergeSortF s true (f + 1) (a :: b :: xs)).filter _ = _
        simp only [mergeSortF, mergeSorted]
        rw [filter_mergeSortedF_asc s k _ _ _ le_rfl hs1, hf1, hf2,
            ← List.filter_append, List.take_append_drop]

/-- The combined induction for the descending sort: descending-sorted, and
every key class in *reversed* input order. -/
theorem mergeSortF_desc_ok (s : Bool) (k : Q) :
    ∀ (f : Nat) (l : List StudentRecord), l.length ≤ f →
      SortedD s (mergeSortF s false f l) ∧
      (mergeSortF s false f l).filter (fun r => keyQ s r = k) =
        (l.filter (fun r => keyQ s r = k)).reverse := by
  intro f
  induction f with
  | zero =>
    intro l hf
    have hl0 : l = [] := List.length_eq_zero.mp (by omega)
    subst hl0
    exact ⟨List.Pairwise.nil, rfl⟩
  | succ f ih =>
    intro l hf
    match l with
    | [] => exact ⟨List.Pairwise.nil, rfl⟩
    | [a] =>
      refine ⟨List.pairwise_singleton _ _, ?_⟩
      by_cases hpa : keyQ s a = k <;> simp [mergeSortF, List.filter_cons, hpa]
    | a :: b :: xs =>
      have htk : ((a :: b :: xs).take (((a :: b :: xs).length + 1) / 2)).length ≤ f := by
        simp at hf ⊢; omega
      have hdr : ((a :: b :: xs).drop (((a :: b :: xs).length + 1) / 2)).length ≤ f := by
        simp at hf ⊢; omega
      obtain ⟨hs1, hf1⟩ := ih _ htk
      obtain ⟨hs2, hf2⟩ := ih _ hdr
      constructor
      · show SortedD s (mergeSortF s false (f + 1) (a :: b :: xs))
        simp only [mergeSortF, mergeSorted]
        exact sortedD_mergeSortedF s _ _ _ le_rfl hs1 hs2
      · show (mergeSortF s false (f + 1) (a :: b :: xs)).filter _ = _
        simp only [mergeSortF, mergeSorted]
        rw [filter_mergeSortedF_desc s k _ _ _ le_rfl hs2, hf1, hf2,
            ← List.reverse_append, ← List.filter_append, List.take_append_drop]

/-- The three records of the spec's sorted-view scenario (§8.5):
marks 80.0, 80.0, 70.0 inserted as ids 2000004, 2000005, 2000006. -/
def c6recs : List StudentRecord :=
  [⟨2000004, "A", "X", Q.ofInt 80⟩, ⟨2000005, "B", "X", Q.ofInt 80⟩,
   ⟨2000006, "C", "X", Q.ofInt 70⟩]

/-- C6 counterexample: the claim (and the spec's own scenario) says
`SHOW ALL SORT BY MARK DESC` on these records outputs ids in order
`2000004, 2000005, 2000006`.  The code outputs `2000005, 2000004, 2000006`:
on equal keys the descending merge takes the *right* list's element
(`compare > 0` rather than `>= 0` at cms.c:454), so the descending sort is
not stable. -/
theorem c6_desc_sort_not_stable :
    (mergeSortC false false c6recs).map (fun r => r.id) = [2000005, 2000004, 2000006] ∧
    [2000005, 2000004, 2000006] ≠ ([2000004, 2000005, 2000006] : List Int) := by decide

/-- C6 (amended): for every key (id or mark), the ascending sorted view is
sorted by the key and *stable* — each key class appears in insertion order
(`filter` by any key value is preserved) — while the descending sorted view
is sorted downward with each key class in *reverse* insertion order.  In the
spec's scenario, MARK DESC therefore outputs `2000005, 2000004, 2000006`. -/
theorem c6_sort_order_and_ties :
    ∀ (sortByID : Bool) (l : List StudentRecord),
      SortedA sortByID (mergeSortC sortByID true l) ∧
      SortedD sortByID (mergeSortC sortByID false l) ∧
      ∀ k : Q,
        (mergeSortC sortByID true l).filter (fun r => keyQ sortByID r = k) =
          l.filter (fun r => keyQ sortByID r = k) ∧
        (mergeSortC sortByID false l).filter (fun r => keyQ sortByID r = k) =
          (l.filter (fun r => keyQ sortByID r = k)).reverse := by
  intro s l
  refine ⟨(mergeSortF_asc_ok s (Q.ofInt 0) l.length l le_rfl).1,
          (mergeSortF_desc_ok s (Q.ofInt 0) l.length l le_rfl).1, ?_⟩
  intro k
  exact ⟨(mergeSortF_asc_ok s k l.length l le_rfl).2,
         (mergeSortF_desc_ok s k l.length l le_rfl).2⟩

/-! ## Claims C7 and C8: serialisation round trip

Generic list scanning lemmas, then correctness of the number renderings,
then the line-by-line behaviour of the load parser on serialised content. -/

theorem takeWhile_append_all {α : Type} (p : α → Bool) :
    ∀ (l1 l2 : List α), (∀ c ∈ l1, p c = true) →
      (l1 ++ l2).takeWhile p = l1 ++ l2.takeWhile p := by
  intro l1 l2 h
  induction l1 with
  | nil => rfl
  | cons a l1 ih =>
    have ha := h a (List.mem_cons_self _ _)
    have ht := ih (fun c hc => h c (List.mem_cons_of_mem _ hc))
    simp [List.takeWhile_cons, ha, ht]

theorem dropWhile_append_all {α : Type} (p : α → Bool) :
    ∀ (l1 l2 : List α), (∀ c ∈ l1, p c = true) →
      (l1 ++ l2).dropWhile p = l2.dropWhile p := by
  intro l1 l2 h
  induction l1 with
  | nil => rfl
  | cons a l1 ih =>
    have ha := h a (List.mem_cons_self _ _)
    have ht := ih (fun c hc => h c (List.mem_cons_of_mem _ hc))
    simp [List.dropWhile_cons, ha, ht]

theorem takeWhile_all {α : Type} (p : α → Bool) :
    ∀ (l : List α), (∀ c ∈ l, p c = true) → l.takeWhile p = l := by
  intro l h
  induction l with
  | nil => rfl
  | cons a l ih =>
    have ha := h a (List.mem_cons_self _ _)
    have ht := ih (fun c hc => h c (List.mem_cons_of_mem _ hc))
    simp [List.takeWhile_cons, ha, ht]

/-- Digit characters have the expected numeric values and classification. -/
theorem digitChar_isDigit : ∀ m : Nat, m < 10 → isDigitC (Nat.digitChar m) = true := by decide

theorem digitChar_val : ∀ m : Nat, m < 10 → digitVal (Nat.digitChar m) = (m : Int) := by decide

/-- Every character of `natDecimalGo` is a digit, and the result is non-empty
for positive fuel. -/
theorem natDecimalGo_digits :
    ∀ (f n : Nat), ∀ c ∈ natDecimalGo f n, isDigitC c = true := by
  intro f
  induction f with
  | zero => intro n c hc; simp [natDecimalGo] at hc
  | succ f ih =>
    intro n c hc
    by_cases h : n < 10
    · have he : natDecimalGo (f + 1) n = [Nat.digitChar n] := by simp [natDecimalGo, h]
      rw [he] at hc
      have := List.mem_singleton.mp hc
      subst this
      exact digitChar_isDigit n h
    · have he : natDecimalGo (f + 1) n =
          natDecimalGo f (n / 10) ++ [Nat.digitChar (n % 10)] := by simp [natDecimalGo, h]
      rw [he] at hc
      rcases List.mem_append.mp hc with hc | hc
      · exact ih _ c hc
      · have := List.mem_singleton.mp hc
        subst this
        exact digitChar_isDigit _ (Nat.mod_lt _ (by omega))

theorem natDecimalGo_ne_nil (f n : Nat) (hf : 0 < f) : natDecimalGo f n ≠ [] := by
  cases f with
  | zero => omega
  | succ f =>
    by_cases h : n < 10 <;> simp [natDecimalGo, h]

/-- `atoiDigits` distributes over an all-digit prefix. -/
theorem atoiDigits_append (l1 l2 : List Char) (h : ∀ c ∈ l1, isDigitC c = true) :
    ∀ acc, atoiDigits (l1 ++ l2) acc = atoiDigits l2 (atoiDigits l1 acc) := by
  induction l1 with
  | nil => intro acc; rfl
  | cons c l1 ih =>
    intro acc
    simp only [List.cons_append, atoiDigits, h c (List.mem_cons_self _ _), if_true]
    exact ih (fun x hx => h x (List.mem_cons_of_mem _ hx)) _

/-- The digit loop of `atoi` inverts the digit rendering. -/
theorem atoiDigits_natDecimalGo :
    ∀ (f n : Nat), n < 10 ^ f → 0 < f → ∀ acc : Int,
      atoiDigits (natDecimalGo f n) acc =
        acc * 10 ^ (natDecimalGo f n).length + n := by
  intro f
  induction f with
  | zero => omega
  | succ f ih =>
    intro n hn _ acc
    by_cases h : n < 10
    · simp [natDecimalGo, h, atoiDigits, digitChar_isDigit n h, digitChar_val n h]
    · have hf : 0 < f := by
        rcases Nat.eq_zero_or_pos f with h0 | h0
        · subst h0; simp at hn; omega
        · exact h0
      have hdiv : n / 10 < 10 ^ f := by
        rw [Nat.div_lt_iff_lt_mul (by omega)]
        calc n < 10 ^ (f + 1) := hn
        _ = 10 ^ f * 10 := by ring
      have he : natDecimalGo (f + 1) n =
          natDecimalGo f (n / 10) ++ [Nat.digitChar (n % 10)] := by simp [natDecimalGo, h]
      rw [he, atoiDigits_append _ _ (natDecimalGo_digits f (n / 10)),
          ih (n / 10) hdiv hf acc]
      have h10 : n % 10 < 10 := Nat.mod_lt _ (by omega)
      have hd10 := digitChar_isDigit _ h10
      have hv10 := digitChar_val _ h10
      simp only [atoiDigits, hd10, if_true, hv10, List.length_append, List.length_cons,
        List.length_nil]
      rw [pow_succ, ← mul_assoc]
      have hsplit : 10 * (n / 10) + n % 10 = n := Nat.div_add_mod n 10
      set A := acc * (10 : Int) ^ (natDecimalGo f (n / 10)).length
      omega

/-- Every number is below `10 ^ (n + 1)`. -/
theorem lt_ten_pow_succ (n : Nat) : n < 10 ^ (n + 1) :=
  lt_of_lt_of_le (Nat.lt_pow_self (by omega) n)
    (Nat.pow_le_pow_right (by omega) (by omega))

theorem natDecimal_digits (n : Nat) : ∀ c ∈ natDecimal n, isDigitC c = true :=
  natDecimalGo_digits (n + 1) n

theorem atoiDigits_natDecimal (n : Nat) :
    atoiDigits (natDecimal n) 0 = n := by
  have := atoiDigits_natDecimalGo (n + 1) n (lt_ten_pow_succ n) (by omega) 0
  simpa [natDecimal] using this

/-- No digit and neither sign nor dot is whitespace (C locale). -/
theorem digit_not_space (c : Char) (h : isDigitC c = true) : isSpaceC c = false := by
  by_contra hs
  rw [Bool.not_eq_false] at hs
  simp [isDigitC] at h
  have hs6 : c = ' ' ∨ c = '\t' ∨ c = '\n' ∨ c = '\x0d' ∨ c = '\x0b' ∨ c = '\x0c' := by
    simpa [isSpaceC, or_assoc] using hs
  rcases hs6 with rfl | rfl | rfl | rfl | rfl | rfl <;> revert h <;> decide

/-- `atoi` inverts `intDecimal`. -/
theorem atoi_intDecimal (i : Int) : atoi (intDecimal i) = i := by
  by_cases hneg : i < 0
  · have hrepr : intDecimal i = '-' :: natDecimal i.natAbs := by
      simp [intDecimal, hneg]
    rw [hrepr]
    have hds : ('-' :: natDecimal i.natAbs).dropWhile (fun c => isSpaceC c) =
        '-' :: natDecimal i.natAbs := by
      simp [List.dropWhile_cons]
      intro h
      cases h
    unfold atoi
    rw [hds]
    simp only [atoiDigits_natDecimal]
    have habs : ((i.natAbs : Nat) : Int) = -i := Int.ofNat_natAbs_of_nonpos (by omega)
    simp [habs]
  · have hrepr : intDecimal i = natDecimal i.natAbs := by
      simp [intDecimal, hneg]
    rw [hrepr]
    obtain ⟨c, cs, hc⟩ : ∃ c cs, natDecimal i.natAbs = c :: cs := by
      cases h : natDecimal i.natAbs with
      | nil => exact absurd h (natDecimalGo_ne_nil _ _ (by omega))
      | cons c cs => exact ⟨c, cs, rfl⟩
    have hdig : isDigitC c = true := by
      apply natDecimal_digits i.natAbs
      rw [hc]; exact List.mem_cons_self _ _
    have hcm : c ≠ '-' ∧ c ≠ '+' := by
      simp [isDigitC] at hdig
      constructor <;> (intro he; subst he; revert hdig; decide)
    have hds : (c :: cs).dropWhile (fun x => isSpaceC x) = c :: cs := by
      simp [List.dropWhile_cons, digit_not_space c hdig]
    unfold atoi
    rw [hc, hds]
    simp [hcm.1, hcm.2, ← hc, atoiDigits_natDecimal]
    omega

/-- `fgets` reads a short newline-terminated line in one call. -/
theorem fgetsGo_line :
    ∀ (body : List Char) (n : Nat) (rest : List Char),
      body.length < n → '\n' ∉ body →
      fgetsGo n (body ++ '\n' :: rest) = (body ++ ['\n'], rest) := by
  intro body
  induction body with
  | nil =>
    intro n rest hn _
    cases n with
    | zero => omega
    | succ n => simp [fgetsGo]
  | cons c body ih =>
    intro n rest hn hmem
    cases n with
    | zero => simp at hn
    | succ n =>
      have hc : ¬ c = '\n' := fun h => hmem (h ▸ List.mem_cons_self _ _)
      have := ih n rest (by simp at hn ⊢; omega) (fun h => hmem (List.mem_cons_of_mem _ h))
      simp [fgetsGo, hc, this]

/-- The unread rest of an `fgets` call is no longer than the input, and
strictly shorter when something was read. -/
theorem fgetsGo_rest_le : ∀ (n : Nat) (s : List Char), (fgetsGo n s).2.length ≤ s.length := by
  intro n
  induction n with
  | zero => intro s; cases s <;> simp [fgetsGo]
  | succ n ih =>
    intro s
    cases s with
    | nil => simp [fgetsGo]
    | cons c cs =>
      by_cases hc : c = '\n'
      · simp [fgetsGo, hc]
      · simp only [fgetsGo, hc, if_false]
        have := ih cs
        simp
        omega

theorem fgetsGo_rest_lt (n : Nat) (c : Char) (cs : List Char) :
    (fgetsGo (n + 1) (c :: cs)).2.length < (c :: cs).length := by
  by_cases hc : c = '\n'
  · simp [fgetsGo, hc]
  · simp only [fgetsGo, hc, if_false]
    have := fgetsGo_rest_le n cs
    simp
    omega

/-- The chunk sequence does not depend on the fuel, once sufficient. -/
theorem fgetsChunksF_fuel :
    ∀ (f g : Nat) (s : List Char), s.length ≤ f → s.length ≤ g →
      fgetsChunksF f s = fgetsChunksF g s := by
  intro f
  induction f with
  | zero =>
    intro g s hf _
    have : s = [] := List.length_eq_zero.mp (by omega)
    subst this
    cases g <;> rfl
  | succ f ih =>
    intro g s hf hg
    cases s with
    | nil => cases g <;> rfl
    | cons c cs =>
      cases g with
      | zero => simp at hg
      | succ g =>
        simp only [fgetsChunksF]
        have hlt := fgetsGo_rest_lt 254 c cs
        have h1 : (fgetsGo 255 (c :: cs)).2.length ≤ f := by simp at hf hlt ⊢; omega
        have h2 : (fgetsGo 255 (c :: cs)).2.length ≤ g := by simp at hg hlt ⊢; omega
        rw [ih g _ h1 h2]

/-- A serialisable line: some newline-free body of at most 254 characters,
terminated by a newline. -/
def goodLine (l : List Char) : Prop :=
  ∃ body, l = body ++ ['\n'] ∧ body.length ≤ 254 ∧ '\n' ∉ body

/-- One step of the `fgets` loop on a good line. -/
theorem fgetsChunks_step (body rest : List Char)
    (hlen : body.length ≤ 254) (hmem : '\n' ∉ body) :
    fgetsChunks (body ++ '\n' :: rest) = (body ++ ['\n']) :: fgetsChunks rest := by
  unfold fgetsChunks
  have hgo : fgetsGo 255 (body ++ '\n' :: rest) = (body ++ ['\n'], rest) :=
    fgetsGo_line body 255 rest (by omega) hmem
  cases hs : body ++ '\n' :: rest with
  | nil => simp at hs
  | cons c cs =>
    have hlenEq : (body ++ '\n' :: rest).length = cs.length + 1 := by rw [hs]; simp
    rw [← hs, hlenEq]
    simp only [fgetsChunksF, hs]
    rw [← hs, hgo]
    have hcs : rest.length ≤ cs.length := by
      have : (body ++ '\n' :: rest).length = body.length + rest.length + 1 := by
        simp
        omega
      omega
    rw [fgetsChunksF_fuel cs.length rest.length rest hcs le_rfl]

/-- The `fgets` loop recovers exactly the lines of a well-formed file. -/
theorem fgetsChunks_flatten :
    ∀ (lines : List (List Char)), (∀ l ∈ lines, goodLine l) →
      fgetsChunks lines.flatten = lines := by
  intro lines
  induction lines with
  | nil => intro _; rfl
  | cons l ls ih =>
    intro h
    obtain ⟨body, hb, hlen, hmem⟩ := h l (List.mem_cons_self _ _)
    have hfl : (l :: ls).flatten = body ++ '\n' :: ls.flatten := by
      simp [hb, List.append_assoc]
    rw [hfl, fgetsChunks_step body ls.flatten hlen hmem,
        ih (fun x hx => h x (List.mem_cons_of_mem _ hx)), ← hb]

/-- Stripping at CR/LF recovers the body of a CR/LF-free line. -/
theorem stripAtCRLF_line (body : List Char) (hn : '\n' ∉ body) (hr : '\x0d' ∉ body) :
    stripAtCRLF (body ++ ['\n']) = body := by
  unfold stripAtCRLF
  rw [takeWhile_append_all _ body _ ?_]
  · simp
  · intro c hc
    have h1 : ¬ c = '\x0d' := fun h => hr (h ▸ hc)
    have h2 : ¬ c = '\n' := fun h => hn (h ▸ hc)
    simp [h1, h2]

theorem dropWhile_all {α : Type} (p : α → Bool) :
    ∀ (l : List α), (∀ c ∈ l, p c = true) → l.dropWhile p = [] := by
  intro l h
  induction l with
  | nil => rfl
  | cons a l ih =>
    simp only [List.dropWhile_cons, h a (List.mem_cons_self _ _), if_true]
    exact ih (fun c hc => h c (List.mem_cons_of_mem _ hc))

/-- Splitting at the next tab, when the prefix is tab-free. -/
theorem cutTab_append (a rest : List Char) (h : '\t' ∉ a) :
    cutTab (a ++ '\t' :: rest) = (a, rest) := by
  unfold cutTab
  have hall : ∀ c ∈ a, (fun c => decide (c ≠ '\t')) c = true := by
    intro c hc
    simp
    exact fun he => h (he ▸ hc)
  rw [takeWhile_append_all _ a _ hall, dropWhile_append_all _ a _ hall]
  simp [List.takeWhile_cons, List.dropWhile_cons]

/-- Splitting a tab-free field at the (absent) next tab. -/
theorem cutTab_noTab (a : List Char) (h : '\t' ∉ a) : cutTab a = (a, []) := by
  unfold cutTab
  have hall : ∀ c ∈ a, (fun c => decide (c ≠ '\t')) c = true := by
    intro c hc
    simp
    exact fun he => h (he ▸ hc)
  rw [takeWhile_all _ a hall, dropWhile_all _ a hall]
  rfl

/-- The characters of an id rendering: a minus sign or digits. -/
theorem intDecimal_chars (i : Int) : ∀ c ∈ intDecimal i, c = '-' ∨ isDigitC c = true := by
  intro c hc
  unfold intDecimal at hc
  by_cases hneg : i < 0
  · rw [if_pos hneg] at hc
    rcases List.mem_cons.mp hc with h | h
    · exact Or.inl h
    · exact Or.inr (natDecimal_digits _ c h)
  · rw [if_neg hneg] at hc
    exact Or.inr (natDecimal_digits _ c hc)

/-- The characters of a mark rendering: sign, dot or digits. -/
theorem fmt1_chars (q : Q) : ∀ c ∈ fmt1 q, c = '-' ∨ c = '.' ∨ isDigitC c = true := by
  intro c hc
  unfold fmt1 at hc
  simp only [List.mem_append] at hc
  rcases hc with (hc | hc) | hc
  · by_cases hs : ((q.mul (Q.ofInt 10)).roundNearest < 0)
    · rw [if_pos hs] at hc
      exact Or.inl (List.mem_singleton.mp hc)
    · rw [if_neg hs] at hc
      simp at hc
  · exact Or.inr (Or.inr (natDecimal_digits _ c hc))
  · rcases List.mem_cons.mp hc with h | h
    · exact Or.inr (Or.inl h)
    · have := List.mem_singleton.mp h
      subst this
      exact Or.inr (Or.inr (digitChar_isDigit _ (Nat.mod_lt _ (by omega))))

theorem intDecimal_ne_nil (i : Int) : intDecimal i ≠ [] := by
  unfold intDecimal
  by_cases hneg : i < 0
  · simp [hneg]
  · simp [hneg]
    exact natDecimalGo_ne_nil _ _ (by omega)

theorem fmt1_ne_nil (q : Q) : fmt1 q ≠ [] := by
  unfold fmt1
  intro h
  simp at h

theorem stringMk_data (s : String) : String.mk s.data = s := rfl

/-- The header, as its five lines. -/
def headerLines : List (List Char) :=
  ["Database Name: P4_1-CMS\n".data, "Authors: P4-1\n".data, "\n".data,
   "Table Name: StudentRecords\n".data, "ID\tName\tProgramme\tMark\n".data]

theorem headerChars_eq : headerChars = headerLines.flatten := by decide

/-- A record the serialisation round-trips: its line fits the `fgets` buffer,
its text fields contain no tab/CR/LF, its line does not contain a header
marker (only degenerate field contents could arrange that), and its mark
survives the one-decimal format.  Every record producible by the command
parser satisfies all but the marker and mark conditions by construction. -/
def wfRecord (r : StudentRecord) : Prop :=
  (recordLine r).length ≤ 255 ∧
  '\t' ∉ r.name.data ∧ '\x0d' ∉ r.name.data ∧ '\n' ∉ r.name.data ∧
  '\t' ∉ r.programme.data ∧ '\x0d' ∉ r.programme.data ∧ '\n' ∉ r.programme.data ∧
  isHeaderOrEmpty (lineBody r) = false ∧
  atof (fmt1 r.mark) = r.mark

instance (r : StudentRecord) : Decidable (wfRecord r) := by
  unfold wfRecord
  infer_instance

theorem lineBody_no_lf (r : StudentRecord) (hn : '\n' ∉ r.name.data)
    (hp : '\n' ∉ r.programme.data) : '\n' ∉ lineBody r := by
  unfold lineBody
  intro hmem
  rcases List.mem_append.mp hmem with h | h
  · rcases intDecimal_chars r.id '\n' h with h | h <;> revert h <;> decide
  rcases List.mem_cons.mp h with h | h
  · exact absurd h (by decide)
  rcases List.mem_append.mp h with h | h
  · exact hn h
  rcases List.mem_cons.mp h with h | h
  · exact absurd h (by decide)
  rcases List.mem_append.mp h with h | h
  · exact hp h
  rcases List.mem_cons.mp h with h | h
  · exact absurd h (by decide)
  rcases fmt1_chars r.mark '\n' h with h | h | h <;> revert h <;> decide

theorem lineBody_no_cr (r : StudentRecord) (hn : '\x0d' ∉ r.name.data)
    (hp : '\x0d' ∉ r.programme.data) : '\x0d' ∉ lineBody r := by
  unfold lineBody
  intro hmem
  rcases List.mem_append.mp hmem with h | h
  · rcases intDecimal_chars r.id '\x0d' h with h | h <;> revert h <;> decide
  rcases List.mem_cons.mp h with h | h
  · exact absurd h (by decide)
  rcases List.mem_append.mp h with h | h
  · exact hn h
  rcases List.mem_cons.mp h with h | h
  · exact absurd h (by decide)
  rcases List.mem_append.mp h with h | h
  · exact hp h
  rcases List.mem_cons.mp h with h | h
  · exact absurd h (by decide)
  rcases fmt1_chars r.mark '\x0d' h with h | h | h <;> revert h <;> decide

/-- Parsing one serialised record line recovers the record. -/
theorem parseLine_lineBody (r : StudentRecord)
    (hn : '\t' ∉ r.name.data) (hp : '\t' ∉ r.programme.data)
    (hm : atof (fmt1 r.mark) = r.mark) :
    parseLine (lineBody r) = r := by
  have hid : '\t' ∉ intDecimal r.id := by
    intro h
    rcases intDecimal_chars r.id '\t' h with h | h <;> revert h <;> decide
  have hfm : '\t' ∉ fmt1 r.mark := by
    intro h
    rcases fmt1_chars r.mark '\t' h with h | h | h <;> revert h <;> decide
  have h0 := cutTab_append (intDecimal r.id)
    (r.name.data ++ ('\t' :: (r.programme.data ++ ('\t' :: fmt1 r.mark)))) hid
  have h1 := cutTab_append r.name.data (r.programme.data ++ ('\t' :: fmt1 r.mark)) hn
  have h2 := cutTab_append r.programme.data (fmt1 r.mark) hp
  have h3 := cutTab_noTab (fmt1 r.mark) hfm
  have hidne : (intDecimal r.id).isEmpty = false := by
    cases h : intDecimal r.id with
    | nil => exact absurd h (intDecimal_ne_nil r.id)
    | cons c cs => rfl
  have hfmne : (fmt1 r.mark).isEmpty = false := by
    cases h : fmt1 r.mark with
    | nil => exact absurd h (fmt1_ne_nil r.mark)
    | cons c cs => rfl
  unfold parseLine lineBody
  simp only [splitTabs4, h0, h1, h2, h3, hidne, hfmne, Bool.false_eq_true, if_false,
    atoi_intDecimal, stringMk_data, hm]

/-- Core round trip: loading the serialised form of a well-formed store
recovers exactly the record sequence. -/
theorem loadParse_serializeDB (rs : List StudentRecord) (h : ∀ r ∈ rs, wfRecord r) :
    loadParse (serializeDB rs) = rs := by
  have hgood : ∀ l ∈ headerLines ++ rs.map recordLine, goodLine l := by
    intro l hl
    rcases List.mem_append.mp hl with hl | hl
    · fin_cases hl
      · exact ⟨"Database Name: P4_1-CMS".data, by decide, by decide, by decide⟩
      · exact ⟨"Authors: P4-1".data, by decide, by decide, by decide⟩
      · exact ⟨[], by decide, by decide, by decide⟩
      · exact ⟨"Table Name: StudentRecords".data, by decide, by decide, by decide⟩
      · exact ⟨"ID\tName\tProgramme\tMark".data, by decide, by decide, by decide⟩
    · obtain ⟨r, hr, hrl⟩ := List.mem_map.mp hl
      obtain ⟨hlen, _, _, hnn, _, _, hpn, _, _⟩ := h r hr
      refine ⟨lineBody r, hrl ▸ rfl, ?_, lineBody_no_lf r hnn hpn⟩
      have : (recordLine r).length = (lineBody r).length + 1 := by simp [recordLine]
      omega
  have hser : serializeDB rs = (headerLines ++ rs.map recordLine).flatten := by
    rw [List.flatten_append, ← headerChars_eq]
    rfl
  unfold loadParse
  rw [hser, fgetsChunks_flatten _ hgood, List.map_append, List.filterMap_append]
  have hhead :
      ((headerLines.map stripAtCRLF).filterMap
        (fun l => if isHeaderOrEmpty l then none else some (parseLine l))) = [] := by
    decide
  rw [hhead]
  have hrecs : ∀ (rs2 : List StudentRecord), (∀ r ∈ rs2, wfRecord r) →
      (((rs2.map recordLine).map stripAtCRLF).filterMap
        (fun l => if isHeaderOrEmpty l then none else some (parseLine l))) = rs2 := by
    intro rs2
    induction rs2 with
    | nil => intro _; rfl
    | cons r rs2 ih =>
      intro h2
      obtain ⟨hlen, hnt, hnr, hnn, hpt, hpr, hpn, hskip, hmark⟩ := h2 r (List.mem_cons_self _ _)
      have hstrip : stripAtCRLF (recordLine r) = lineBody r :=
        stripAtCRLF_line (lineBody r) (lineBody_no_lf r hnn hpn) (lineBody_no_cr r hnr hpr)
      simp only [List.map_cons, List.filterMap_cons, hstrip, hskip, Bool.false_eq_true,
        if_false, parseLine_lineBody r hnt hpt hmark]
      rw [ih (fun x hx => h2 x (List.mem_cons_of_mem _ hx))]
  rw [hrecs rs h]
  rfl

theorem serializeDB_ne_nil (rs : List StudentRecord) : serializeDB rs ≠ [] := by
  unfold serializeDB
  intro h
  rcases List.append_eq_nil.mp h with ⟨h1, _⟩
  revert h1
  decide

set_option maxRecDepth 8192

/-- C8 counterexample: the claim says serialise-then-load recovers every
store.  A record whose name is "Authors: P4-1" (reachable: the input layer
title-cases `authors: p4-1` to exactly this) serialises to a line containing
a header marker, which the load loop skips (`strstr`-based matching), so the
record is lost. -/
theorem c8_roundtrip_loses_marker_record :
    loadParse (serializeDB [⟨2000001, "Authors: P4-1", "", Q.ofInt 0⟩]) = [] ∧
    ([] : List StudentRecord) ≠ [⟨2000001, "Authors: P4-1", "", Q.ofInt 0⟩] := by decide

/-- C8 (amended): serialising and re-loading recovers the record sequence
exactly, provided every record is well-formed for the format: its line fits
the 256-byte `fgets` buffer, its text fields contain no tab/CR/LF, its line
does not contain one of the four header markers, and its mark value is a
fixed point of the one-decimal print/parse cycle. -/
theorem c8_roundtrip_wellformed (rs : List StudentRecord) (h : ∀ r ∈ rs, wfRecord r) :
    loadParse (serializeDB rs) = rs :=
  loadParse_serializeDB rs h

/-- Witness for the amended C8 at a concrete store. -/
theorem c8_roundtrip_wellformed_witness :
    (∀ r ∈ [(⟨2000001, "Ada", "Cs", Q.ofInt 90⟩ : StudentRecord)], wfRecord r) ∧
    loadParse (serializeDB [(⟨2000001, "Ada", "Cs", Q.ofInt 90⟩ : StudentRecord)]) =
      [(⟨2000001, "Ada", "Cs", Q.ofInt 90⟩ : StudentRecord)] :=
  ⟨by decide, c8_roundtrip_wellformed _ (by decide)⟩

/-- A primary file with CRLF line endings: loads fine (the CR is stripped),
but is not byte-identical to its own re-serialisation. -/
def crlfContent : List Char :=
  ("Database Name: P4_1-CMS\x0d\nAuthors: P4-1\x0d\n\x0d\nTable Name: StudentRecords\x0d\n" ++
   "ID\tName\tProgramme\tMark\x0d\n2000001\tAda\tCs\t90.0\x0d\n").data

/-- C7 counterexample: the claim says save immediately after a successful
load writes nothing and reports "no changes" *for every accepted input file
including CRLF line endings*.  Loading `crlfContent` succeeds and yields the
expected record, but `saveDB` serialises with `\n` endings, the byte
comparison fails, and it writes the backup and the primary. -/
theorem c7_crlf_load_save_rewrites :
    loadParse crlfContent = [(⟨2000001, "Ada", "Cs", Q.ofInt 90⟩ : StudentRecord)] ∧
    saveDB true (some crlfContent) (loadParse crlfContent) =
      SaveResult.saved (some crlfContent)
        (serializeDB [(⟨2000001, "Ada", "Cs", Q.ofInt 90⟩ : StudentRecord)]) ∧
    saveDB true (some crlfContent) (loadParse crlfContent) ≠ SaveResult.noChanges := by decide

/-- C7 (amended): save immediately after load writes nothing and reports "no
changes" exactly when the file is already in canonical serialised form —
the content is `serializeDB` of well-formed records (exact header, `\n`
endings, marks printed to one fractional digit).  Files that load to the
same records but differ in bytes (CRLF endings, extra blank lines, marks not
printed to one decimal) are rewritten, since the comparison is whole-file
byte equality. -/
theorem c7_load_save_canonical_no_changes (rs : List StudentRecord)
    (h : ∀ r ∈ rs, wfRecord r) :
    saveDB true (some (serializeDB rs)) (loadParse (serializeDB rs)) =
      SaveResult.noChanges := by
  rw [loadParse_serializeDB rs h]
  unfold saveDB
  cases hs : serializeDB rs with
  | nil => exact absurd hs (serializeDB_ne_nil rs)
  | cons c cs =>
    rw [← hs]
    simp [hs]

/-- Witness for the amended C7 at a concrete store. -/
theorem c7_load_save_canonical_witness :
    (∀ r ∈ [(⟨2000001, "Ada", "Cs", Q.ofInt 90⟩ : StudentRecord)], wfRecord r) ∧
    saveDB true (some (serializeDB [(⟨2000001, "Ada", "Cs", Q.ofInt 90⟩ : StudentRecord)]))
        (loadParse (serializeDB [(⟨2000001, "Ada", "Cs", Q.ofInt 90⟩ : StudentRecord)])) =
      SaveResult.noChanges :=
  ⟨by decide, c7_load_save_canonical_no_changes _ (by decide)⟩

end CMS
